import Mathlib

/-!
Verification of the mutation algebra and variant lineage engine of the
`aide` repository (file `src/aide/base/variants.py`), via a shallow
embedding.  Protein sequences are `List Char`; Python machine strings,
sets and dicts are modelled by lists with deterministic canonical
iteration order (Python set iteration order is unspecified; wherever the
source iterates a set, the model iterates the canonically sorted list,
which agrees with the source whenever the result is iteration-order
independent, which is the case on all inputs the theorems below touch).
-/

/-- Characters 0-9, as used by the regular expression group `\d`. -/
def isDigitChar (c : Char) : Bool := decide (48 ≤ c.toNat ∧ c.toNat ≤ 57)

/-- Characters A-Z (the residue letters of the grammar). -/
def isUpperChar (c : Char) : Bool := decide (65 ≤ c.toNat ∧ c.toNat ≤ 90)

/-- Characters matched by the `ref` group class `[A-Z>]`. -/
def isRefChar (c : Char) : Bool := isUpperChar c || decide (c = '>')

/-- Characters matched by the `alt` group class `[A-Z-]`. -/
def isAltChar (c : Char) : Bool := isUpperChar c || decide (c = '-')

/-- Decimal digit rendering, one digit. -/
def digitChar : Nat → Char
  | 0 => '0' | 1 => '1' | 2 => '2' | 3 => '3' | 4 => '4'
  | 5 => '5' | 6 => '6' | 7 => '7' | 8 => '8' | 9 => '9'
  | _ => '?'

/-- Numeric value of a decimal digit character. -/
def digitVal (c : Char) : Nat := c.toNat - 48

/-- Digit extraction for positive numbers, most significant digit first,
with enough fuel to terminate structurally. -/
def natToCharsAux : Nat → Nat → List Char
  | 0, _ => []
  | fuel + 1, n =>
    if n = 0 then []
    else natToCharsAux fuel (n / 10) ++ [digitChar (n % 10)]

/-- Decimal rendering of a natural number, as Python `str(n)` produces for
natural `n`. -/
def natToChars (n : Nat) : List Char :=
  if n = 0 then ['0'] else natToCharsAux (n + 1) n

/-- Decimal rendering of an integer, as Python `str` (`f-string`) produces. -/
def intToChars (i : Int) : List Char :=
  if i < 0 then '-' :: natToChars i.natAbs else natToChars i.toNat

/-- Value of a list of decimal digit characters, most significant first. -/
def charsToNat (s : List Char) : Nat :=
  s.foldl (fun a c => 10 * a + digitVal c) 0

/-- The `Mutation` dataclass of `variants.py`: position (0-indexed
internally), reference residues (empty for an insertion), alternate
residues (`"-"` for a deletion), and the insertion tie-break `order`
(Python int, default 0). -/
structure Mutation where
  position : Nat
  ref : List Char
  alt : List Char
  order : Int := 0
deriving DecidableEq, Repr

/-- Model of `Mutation.initial_width`: `len(self.ref)`. -/
def Mutation.initial_width (m : Mutation) : Nat := m.ref.length

/-- Model of `Mutation.is_insertion`: `self.ref == ''`. -/
def Mutation.is_insertion (m : Mutation) : Bool := m.ref.isEmpty

/-- Model of `Mutation.is_deletion`: `self.alt == '-'`. -/
def Mutation.is_deletion (m : Mutation) : Bool := decide (m.alt = ['-'])

/-- Error taxonomy; the source raises `ValueError` in all these situations,
the spec names them as listed in its section 7. -/
inductive VErr where
  | formatErr | invalidRef | posConflict | immutable | lengthMismatch
  | noParent | modelErr
deriving DecidableEq, Repr

instance {ε α : Type} [DecidableEq ε] [DecidableEq α] :
    DecidableEq (Except ε α) := fun x y =>
  match x, y with
  | .ok a, .ok b =>
    if h : a = b then .isTrue (by rw [h]) else .isFalse (by simp [h])
  | .error a, .error b =>
    if h : a = b then .isTrue (by rw [h]) else .isFalse (by simp [h])
  | .ok _, .error _ => .isFalse (by simp)
  | .error _, .ok _ => .isFalse (by simp)

/-- The optional order group `(?P<order>\d+>)?` of the mutation-string
regular expression: a maximal digit run immediately followed by `>`
(no shorter digit run can be followed by `>`, so the greedy match is the
only possible one).  Returns the parsed order and the rest of the input,
or leaves the input untouched when the group does not match. -/
def parseOrder (s : List Char) : Option Nat × List Char :=
  let ds := s.takeWhile isDigitChar
  let rest := s.dropWhile isDigitChar
  if ds ≠ [] ∧ rest.head? = some '>' then (some (charsToNat ds), rest.tail)
  else (none, s)

/-- An optional group `\[?BODY+\]?` of the mutation-string regular
expression (used with body class `[A-Z>]` for `ref` and `[A-Z-]` for
`alt`): optionally an opening bracket, then a nonempty maximal run of
body characters, then optionally a closing bracket.  When the body run is
empty the whole group matches nothing (the regex backtracks the optional
brackets away, and the body class does not contain `[`). -/
def parseGroup (isBody : Char → Bool) (s : List Char) :
    Option (List Char) × List Char :=
  if s.head? = some '[' then
    if s.tail.takeWhile isBody = [] then (none, s)
    else if (s.tail.dropWhile isBody).head? = some ']' then
      (some (s.tail.takeWhile isBody), (s.tail.dropWhile isBody).tail)
    else (some (s.tail.takeWhile isBody), s.tail.dropWhile isBody)
  else
    if s.takeWhile isBody = [] then (none, s)
    else if (s.dropWhile isBody).head? = some ']' then
      (some (s.takeWhile isBody), (s.dropWhile isBody).tail)
    else (some (s.takeWhile isBody), s.dropWhile isBody)

/-- Model of `Mutation._parse_mutation_string`: the regular expression
`(?P<order>\d+>)?(?P<ref>\[?[A-Z>]+\]?)?(?P<pos>\d+)(?P<alt>\[?[A-Z-]+\]?)`
matched from the start of the string (a trailing remainder is ignored,
as with `re.match`), followed by the bracket stripping and the
post-processing `ref == '>' ⇒ ref = ''` and `order is None ⇒ order = 0`. -/
def parseMutationString (s : List Char) :
    Option (List Char × Nat × List Char × Int) :=
  let (order?, s1) := parseOrder s
  let (ref?, s2) := parseGroup isRefChar s1
  let ds := s2.takeWhile isDigitChar
  if ds = [] then none
  else
    let s3 := s2.dropWhile isDigitChar
    let (alt?, _s4) := parseGroup isAltChar s3
    match alt? with
    | none => none
    | some alt =>
      let ref := match ref? with
        | none => []
        | some r => if r = ['>'] then [] else r
      let ord : Int := match order? with
        | none => 0
        | some o => Int.ofNat o
      some (ref, charsToNat ds, alt, ord)

/-- Model of `Mutation.from_string`: parse, then decrement the position unless
`zero_indexed`, rejecting a resulting negative position. -/
def Mutation.from_string (s : List Char) (zero_indexed : Bool) :
    Except VErr Mutation :=
  match parseMutationString s with
  | none => .error .formatErr
  | some (ref, pos, alt, ord) =>
    if zero_indexed then .ok ⟨pos, ref, alt, ord⟩
    else if pos = 0 then .error .formatErr
    else .ok ⟨pos - 1, ref, alt, ord⟩

/-- Model of `Mutation.__str__`: single-residue ref/alt unbracketed, multi-residue
bracketed, empty ref (insertion) rendered as `{order}>`. -/
def Mutation.toChars (m : Mutation) : List Char :=
  let refPart :=
    if m.ref.length = 1 then m.ref
    else if m.ref = [] then intToChars m.order ++ ['>']
    else '[' :: m.ref ++ [']']
  let altPart :=
    if m.alt.length = 1 then m.alt
    else '[' :: m.alt ++ [']']
  refPart ++ natToChars m.position ++ altPart

/-- Strict lexicographic order on character lists (used only to fix a
deterministic canonical iteration order for the model of Python sets). -/
def charsLt : List Char → List Char → Bool
  | [], [] => false
  | [], _ :: _ => true
  | _ :: _, [] => false
  | a :: as, b :: bs =>
    if a.toNat < b.toNat then true
    else if b.toNat < a.toNat then false
    else charsLt as bs

/-- Strict total order on mutations: by `(position, order)` first — the
sort key the source uses in `MutationSet.__str__` and
`MutationSet._aggregate_indels` — refined by `(ref, alt)` so that the
order is total (the refinement only resolves ties the source leaves to
unspecified set iteration order). -/
def mutLt (a b : Mutation) : Bool :=
  decide (a.position < b.position) ||
  (decide (a.position = b.position) &&
    (decide (a.order < b.order) ||
      (decide (a.order = b.order) &&
        (charsLt a.ref b.ref || (decide (a.ref = b.ref) && charsLt a.alt b.alt)))))

/-- Insert a mutation into a canonically sorted duplicate-free list,
dropping it if already present (the model of Python `set` membership). -/
def insertCanon (m : Mutation) : List Mutation → List Mutation
  | [] => [m]
  | x :: xs =>
    if m = x then x :: xs
    else if mutLt m x then m :: x :: xs
    else x :: insertCanon m xs

/-- Canonical duplicate-free sorted list representing the Python `set`
of a list of mutations. -/
def canon (l : List Mutation) : List Mutation := l.foldr insertCanon []

/-- Stable-enough insertion step for sorting an insertion group by
`order` (ties cannot occur in a validated set: same-position insertions
must carry distinct orders). -/
def insertByOrder (m : Mutation) : List Mutation → List Mutation
  | [] => [m]
  | x :: xs => if m.order ≤ x.order then m :: x :: xs else x :: insertByOrder m xs

/-- Model of `sorted(mutations, key=lambda x: x.order)` on an insertion group. -/
def sortByOrder (l : List Mutation) : List Mutation := l.foldr insertByOrder []

/-- First-occurrence deduplication, with an accumulator of the values
already seen. -/
def dedupKeepAux (seen : List Nat) : List Nat → List Nat
  | [] => []
  | x :: xs =>
    if x ∈ seen then dedupKeepAux seen xs
    else x :: dedupKeepAux (x :: seen) xs

/-- First-occurrence deduplication of a position list (the key order of a
Python dict built by repeated insertion). -/
def dedupKeep (l : List Nat) : List Nat := dedupKeepAux [] l

/-- Positions of the non-insertion mutations (the initial `positions`
list of `MutationSet._check_unique_mutation_positions`). -/
def nonInsPositions (muts : List Mutation) : List Nat :=
  (muts.filter (fun m => !m.is_insertion)).map (·.position)

/-- The extra positions consumed by multi-residue mutations
(`range(position + 1, position + initial_width)` for each mutation of
width above one). -/
def widthExtension (muts : List Mutation) : List Nat :=
  ((muts.filter (fun m => decide (1 < m.initial_width))).map
    (fun m => List.range' (m.position + 1) (m.initial_width - 1))).flatten

/-- Whether some insertion position falls strictly inside the span of a
multi-residue mutation (raises in the source). -/
def insertionInsideMulti (muts : List Mutation) : Bool :=
  muts.any fun m =>
    decide (1 < m.initial_width) &&
    (muts.any fun m2 =>
      m2.is_insertion && decide (m.position + 1 ≤ m2.position) &&
      decide (m2.position < m.position + m.initial_width))

/-- Positions at which insertions occur, in canonical first-occurrence
order (models the `insertion_mutations` dict keys). -/
def insPositions (muts : List Mutation) : List Nat :=
  dedupKeep ((muts.filter (fun m => m.is_insertion)).map (·.position))

/-- Whether every same-position insertion group carries pairwise distinct
orders. -/
def insertionOrdersOk (muts : List Mutation) : Bool :=
  (insPositions muts).all fun p =>
    decide (((muts.filter fun m => m.is_insertion && decide (m.position = p)).map
      (·.order)).Nodup)

/-- Model of `MutationSet._check_unique_mutation_positions`, as a pass/fail
predicate: the source raises a `ValueError` (the spec's
`PositionConflictError`) exactly when this returns false.  All three
component checks are membership properties of the multiset of mutations,
so they do not depend on set iteration order. -/
def checkUniqueOk (muts : List Mutation) : Bool :=
  !insertionInsideMulti muts &&
  decide ((nonInsPositions muts ++ widthExtension muts).Nodup) &&
  insertionOrdersOk muts

/-- Model of `MutationSet.__init__` without indel aggregation: collect the
mutations into a set and validate the positional invariants. -/
def MutationSet.make (l : List Mutation) : Except VErr (List Mutation) :=
  let s := canon l
  if checkUniqueOk s then .ok s else .error .posConflict

/-- One pass of `MutationSet._aggregate_indels` over the sorted
mutations, carrying the running aggregate. -/
def aggLoop : Option Mutation → List Mutation → List Mutation
  | none, [] => []
  | some cur, [] => [cur]
  | none, m :: rest => aggLoop (some m) rest
  | some cur, m :: rest =>
    if m.position = cur.position then
      aggLoop (some ⟨cur.position, cur.ref, cur.alt ++ m.alt, cur.order⟩) rest
    else if m.position = cur.position + cur.initial_width then
      if cur.alt.getLast? = some '-' && m.is_deletion then
        aggLoop (some ⟨cur.position, cur.ref ++ m.ref, cur.alt, cur.order⟩) rest
      else cur :: aggLoop (some m) rest
    else cur :: aggLoop (some m) rest

/-- Model of `MutationSet._aggregate_indels`: sort by `(position, order)`, run the
aggregation pass, replace the membership with the result.  The canonical
sort refines the source's stable sort by `(position, order)` with a
`(ref, alt)` tie-break; on a same-position equal-order pair (an
insertion sharing a position and order with a non-insertion, which the
invariants allow) the source's processing order follows unspecified set
iteration order, so on that tie regime this model fixes one of the
program's possible outcomes and no theorem below asserts a result
there. -/
def MutationSet.aggregate (muts : List Mutation) : List Mutation :=
  canon (aggLoop none (canon muts))

/-- Model of `MutationSet.__init__` with `aggregate_indels=True`. -/
def MutationSet.makeAgg (l : List Mutation) : Except VErr (List Mutation) :=
  (MutationSet.make l).map MutationSet.aggregate

/-- Model of `MutationSet.add`: validate the prospective full set before
committing; the set is unchanged when validation fails. -/
def MutationSet.add (muts : List Mutation) (m : Mutation) :
    Except VErr (List Mutation) :=
  let putative := canon (m :: muts)
  if checkUniqueOk putative then .ok putative else .error .posConflict

/-- Python slicing `seq[pos : pos + w]` for non-negative bounds. -/
def listSlice (l : List Char) (pos w : Nat) : List Char := (l.drop pos).take w

/-- Model of `Mutation._check_validity(variant)` as a pass/fail predicate over the
variant data it reads: the variant's base sequence
(`variant.base_sequence`) and the variant's materialized length
(`len(variant)`, which is `len(str(variant))`).  Fails when an insertion
position exceeds the materialized length, or when the reference residues
differ from `base[position : position + initial_width]`. -/
def Mutation.check_validity (m : Mutation) (base : List Char) (matLen : Nat) :
    Bool :=
  if m.is_insertion && decide (matLen < m.position) then false
  else if listSlice base m.position m.initial_width ≠ m.ref then false
  else true

/-- The `position_map` dict of `MutationSet`: maps a position to the
mutation at it; when several mutations share a position (possible only
for an insertion sharing a position with a non-insertion) the last one
in iteration order wins. -/
def posMap (muts : List Mutation) (i : Nat) : Option Mutation :=
  (muts.filter (fun m => decide (m.position = i))).getLast?

/-- Model of `MutationSet._get_variant_base_list`: expand the base sequence into
slots, keeping a multi-residue reference together at its start position
followed by gap slots, and skipping the residues it covers. -/
def buildSlots (pm : Nat → Option Mutation) :
    Nat → Nat → List Char → List (List Char)
  | _, _, [] => []
  | i, skip, c :: rest =>
    match pm i with
    | some m =>
      let w := m.initial_width
      ((if 1 < w then m.ref else [c]) :: List.replicate (w - 1) ['-'])
        ++ buildSlots pm (i + 1) (w - 1) rest
    | none =>
      if 0 < skip then buildSlots pm (i + 1) (skip - 1) rest
      else [c] :: buildSlots pm (i + 1) 0 rest

/-- Model of `Mutation._update_variant_list` for a non-insertion: overwrite the
slot at the mutation's position with the replacement. -/
def updateNonIns (slots : List (List Char)) (m : Mutation) : List (List Char) :=
  slots.set m.position m.alt

/-- Model of `Mutation._update_variant_list` for an insertion: append at the end
of the slot list, or prepend to the slot at the position. -/
def updateIns (slots : List (List Char)) (m : Mutation) : List (List Char) :=
  if m.position = slots.length then slots ++ [m.alt]
  else
    match slots[m.position]? with
    | some v => slots.set m.position (m.alt ++ v)
    | none => slots

/-- Model of `MutationSet.get_variant_str` without the validity re-check (the
source skips the check when the set is the one bound to the variant,
which is the case on every materialization path; validation is modelled
separately where the source performs it): build the gapped slot list,
apply non-insertions, then apply each same-position insertion group in
descending order, and finally strip gaps. -/
def MutationSet.get_variant_str (muts : List Mutation) (base : List Char) :
    List Char :=
  let slots0 := buildSlots (posMap muts) 0 0 base
  let slots1 := (muts.filter (fun m => !m.is_insertion)).foldl updateNonIns slots0
  let slots2 := (insPositions muts).foldl
    (fun sl p =>
      ((sortByOrder (muts.filter fun m =>
        m.is_insertion && decide (m.position = p))).reverse).foldl updateIns sl)
    slots1
  slots2.flatten.filter (fun c => c ≠ '-')

/-- Left-to-right effectful map in the `Except` monad, stopping at the
first error, as a Python list comprehension over a raising function
does. -/
def exceptMapM (f : α → Except VErr β) : List α → Except VErr (List β)
  | [] => .ok []
  | x :: xs => do
    let y ← f x
    let ys ← exceptMapM f xs
    .ok (y :: ys)

/-- Join token lists with semicolons, as `';'.join` does. -/
def joinSemi : List (List Char) → List Char
  | [] => []
  | [t] => t
  | t :: ts => t ++ ';' :: joinSemi ts

/-- Split a character list at every semicolon, as Python `split(';')`
does; the empty input yields one empty token. -/
def splitSemi : List Char → List (List Char)
  | [] => [[]]
  | c :: rest =>
    if c = ';' then [] :: splitSemi rest
    else
      match splitSemi rest with
      | t :: ts => (c :: t) :: ts
      | [] => [[c]]

/-- Model of `MutationSet.__str__`: the edits sorted by `(position, order)`,
rendered and joined with semicolons. -/
def MutationSet.toChars (muts : List Mutation) : List Char :=
  joinSemi ((canon muts).map Mutation.toChars)

/-- Model of `MutationSet.from_string` for a single string argument: split on
semicolons, parse each token, and construct the validated set. -/
def MutationSet.from_string (s : List Char) (zero_indexed : Bool) :
    Except VErr (List Mutation) := do
  let toks := splitSemi s
  let muts ← exceptMapM (fun t => Mutation.from_string t zero_indexed) toks
  MutationSet.make muts

/-- The mutable state of one `Variant` object: the literal base sequence
(`_base_sequence`, absent for a child), the parent handle (`_parent`),
the bound mutation set, the `_mutatable` flag, and the handles of the
registered children (`_children`, in registration order). -/
structure Variant where
  base : Option (List Char)
  parent : Option Nat
  mutations : List Mutation
  mutatableFlag : Bool
  children : List Nat
deriving DecidableEq, Repr

/-- A heap of variant records addressed by handles (list indices). -/
abbrev World := List Variant

/-- Fuel-bounded materialization (`Variant.__str__`): a variant's
sequence is its mutation set applied to its base sequence, which is the
literal base for a root and the parent's materialized sequence for a
child.  The memoization cache of the source is a pure optimization with
no observable effect and is not modelled. -/
def materializeAux (w : World) : Nat → Nat → Option (List Char)
  | 0, _ => none
  | fuel + 1, h =>
    w[h]?.bind fun v =>
      match v.base with
      | some b => some (MutationSet.get_variant_str v.mutations b)
      | none =>
        v.parent.bind fun p =>
          (materializeAux w fuel p).map (MutationSet.get_variant_str v.mutations)

/-- Model of `str(variant)` for the variant at handle `h`; the fuel `w.length + 1`
covers every acyclic parent chain. -/
def World.materialize (w : World) (h : Nat) : Option (List Char) :=
  materializeAux w (w.length + 1) h

/-- Model of `Variant.base_sequence`: the literal base if present, otherwise the
parent's materialized sequence. -/
def World.baseSeq (w : World) (h : Nat) : Option (List Char) :=
  w[h]?.bind fun v =>
    match v.base with
    | some b => some b
    | none => v.parent.bind fun p => w.materialize p

/-- Model of `Variant.mutatable`: no children and the `_mutatable` flag. -/
def World.mutatable (w : World) (h : Nat) : Bool :=
  match w[h]? with
  | some v => v.children.isEmpty && v.mutatableFlag
  | none => false

/-- Model of `Variant.add_mutations`: reject if not mutatable; union the new
mutations into the existing set (re-validating the positional
invariants, as the `MutationSet` constructor run by the union does);
validate every mutation of the union against the variant's base sequence
and current materialized length; commit only after all checks pass. -/
def World.add_mutations (w : World) (h : Nat) (ms : List Mutation) :
    Except VErr World :=
  match w[h]? with
  | none => .error .modelErr
  | some v =>
    if !(v.children.isEmpty && v.mutatableFlag) then .error .immutable
    else
      let newMuts := canon (v.mutations ++ ms)
      if !checkUniqueOk newMuts then .error .posConflict
      else
        match w.materialize h, w.baseSeq h with
        | some s, some b =>
          if newMuts.all (fun m => m.check_validity b s.length) then
            .ok (w.set h { v with mutations := newMuts })
          else .error .invalidRef
        | _, _ => .error .modelErr

/-- A fresh root variant world: `Variant(sequence)` with an optional
already-validated mutation set bound. -/
def World.root (seq : List Char) (muts : List Mutation) : World :=
  [⟨some seq, none, muts, true, []⟩]

/-- Model of `Variant.propegate` (construction of a child variant):
`Variant.__init__` stores the parent reference and registers the child
in the parent's child set BEFORE parsing and adding the mutations, so
when `add_mutations` raises, the raised error propagates to the caller
while the parent's child set retains the half-constructed child.  The
returned world is the state observable after the call, together with the
result (the new handle, or the raised error). -/
def World.propegate (w : World) (p : Nat) (ms : List Mutation) :
    World × Except VErr Nat :=
  match w[p]? with
  | none => (w, .error .modelErr)
  | some pv =>
    let n := w.length
    let child : Variant := ⟨none, some p, [], true, []⟩
    let w1 := (w.set p { pv with children := pv.children ++ [n] }) ++ [child]
    match World.add_mutations w1 n ms with
    | .ok w2 => (w2, .ok n)
    | .error e => (w1, .error e)

/-- Model of `Variant.cut_parent`: reject on a root; otherwise freeze the
PARENT's materialized sequence as the literal base, remove the variant
from the parent's child set, and clear the parent reference.  The
variant's own mutation set is kept. -/
def World.cut_parent (w : World) (h : Nat) : Except VErr World :=
  match w[h]? with
  | none => .error .modelErr
  | some v =>
    match v.parent with
    | none => .error .noParent
    | some p =>
      match w.materialize p, w[p]? with
      | some ps, some pv =>
        let w1 := w.set p { pv with children := pv.children.erase h }
        .ok (w1.set h { v with parent := none, base := some ps })
      | _, _ => .error .modelErr

/-- The per-column loop of `Variant.parse_mutations`: walk the two
aligned strings in lock-step, keeping a position counter over `self`'s
residues and an order counter for runs of insertions, emit a mutation
string per differing column and re-parse it with
`Mutation.from_string(..., zero_indexed=True)`. -/
def pmLoop : List Char → List Char → Nat → Nat → Except VErr (List Mutation)
  | [], _, _, _ => .ok []
  | _ :: _, [], _, _ => .ok []
  | c1 :: q, c2 :: s, pos, ord0 =>
    let ord := if c1 ≠ '-' then 0 else ord0
    if c1 ≠ '-' ∧ c2 ≠ '-' then
      if c1 ≠ c2 then do
        let m ← Mutation.from_string ([c1] ++ natToChars pos ++ [c2]) true
        let rest ← pmLoop q s (pos + 1) ord
        .ok (m :: rest)
      else pmLoop q s (pos + 1) ord
    else if c1 = '-' then do
      let m ← Mutation.from_string
        (natToChars ord ++ ['>'] ++ natToChars pos ++ [c2]) true
      let rest ← pmLoop q s pos (ord + 1)
      .ok (m :: rest)
    else do
      let m ← Mutation.from_string ([c1] ++ natToChars pos ++ ['-']) true
      let rest ← pmLoop q s (pos + 1) ord
      .ok (m :: rest)

/-- Model of `Variant.parse_mutations` with `expect_indels=False`, as a function
of the two materialized sequences: reject on a length mismatch,
otherwise walk both strings position by position and collect the emitted
mutations into a validated `MutationSet`. -/
def parseMutationsNoIndel (q s : List Char) : Except VErr (List Mutation) :=
  if q.length ≠ s.length then .error .lengthMismatch
  else do
    let muts ← pmLoop q s 0 0
    MutationSet.make muts

/-- Parse a 1-indexed multi-edit string, bind it to a fresh root variant
with the given base sequence via `add_mutations`, and materialize — the
pipeline of the source's `Variant(base); v.add_mutations(edits); str(v)`. -/
def applyToRoot (edits base : List Char) : Except VErr (List Char) := do
  let ms ← MutationSet.from_string edits false
  let w1 ← World.add_mutations (World.root base []) 0 ms
  match w1.materialize 0 with
  | some s => .ok s
  | none => .error .modelErr

/-- A well-formed edit per the spec data model: reference made of residue
letters (empty exactly for an insertion), nonempty replacement over the
residue letters and the deletion marker, and a serializable order:
non-negative for insertions (whose order is printed), zero for
non-insertions (whose order is never printed). -/
def validEdit (m : Mutation) : Prop :=
  (∀ c ∈ m.ref, isUpperChar c = true)
  ∧ m.alt ≠ []
  ∧ (∀ c ∈ m.alt, isAltChar c = true)
  ∧ (if m.ref = [] then 0 ≤ m.order else m.order = 0)

instance (m : Mutation) : Decidable (validEdit m) := by
  unfold validEdit; infer_instance

/-- A list is in canonical order when it is strictly sorted by `mutLt`. -/
def orderedMuts (l : List Mutation) : Prop :=
  List.Pairwise (fun a b => mutLt a b = true) l

/-- The substitution list the no-indel walk produces on gap-free inputs:
one substitution per differing column, positions counted from `k`. -/
def subsFrom : List Char → List Char → Nat → List Mutation
  | [], _, _ => []
  | _ :: _, [], _ => []
  | c1 :: q, c2 :: s, k =>
    if c1 ≠ c2 then ⟨k, [c1], [c2], 0⟩ :: subsFrom q s (k + 1)
    else subsFrom q s (k + 1)

/-- C1: applying the literal 1-indexed edit sets of the spec to a root
variant with base sequence `MAGV` yields exactly the spec's literal
results: `A2[TM] ⇒ MTMGV`, `A2[TM];G3[ST] ⇒ MTMSTV`, `A2[-] ⇒ MGV`, and
the insertion `>2T ⇒ MTAGV`. -/
theorem claim_c1 :
    applyToRoot "A2[TM]".toList "MAGV".toList = .ok "MTMGV".toList
    ∧ applyToRoot "A2[TM];G3[ST]".toList "MAGV".toList = .ok "MTMSTV".toList
    ∧ applyToRoot "A2[-]".toList "MAGV".toList = .ok "MGV".toList
    ∧ applyToRoot ">2T".toList "MAGV".toList = .ok "MTAGV".toList := by
  decide

/-- C4: evaluation of the code at the failing input.  Propagating a
child of the root `MAGV` with the invalid mutation `X1Y` (its reference
does not match the base) raises the invalid-reference error, yet the
parent's child set — empty before the call — retains the
half-constructed child afterwards: `Variant.__init__` registers the
child in the parent's child set before validating the mutations, so the
validation failure leaves the parent's state changed, contradicting the
claim that all previously existing state is exactly as before the
call. -/
theorem claim_c4_bug_eval :
    (World.root "MAGV".toList [])[0]?.map Variant.children = some []
    ∧ (World.propegate (World.root "MAGV".toList [])
        0 [⟨0, ['X'], ['Y'], 0⟩]).2 = .error .invalidRef
    ∧ ((World.propegate (World.root "MAGV".toList [])
        0 [⟨0, ['X'], ['Y'], 0⟩]).1[0]?.map Variant.children) = some [1] := by
  decide

/-- C5, counterexamples: the round trip fails as stated, on three
fronts.  (1) A non-insertion edit with nonzero `order` formats without
its order (`__str__` only renders `order` for insertions), so it
re-parses with `order = 0` and is not equal to the original.  (2) The
empty edit set formats to the empty string, which `from_string` fails to
parse.  (3) An insertion with a negative `order` formats to a string the
grammar cannot parse back. -/
theorem claim_c5_counterexample :
    (Mutation.toChars ⟨1, ['A'], ['M'], 1⟩ = "A1M".toList
      ∧ Mutation.from_string (Mutation.toChars ⟨1, ['A'], ['M'], 1⟩) true
          = .ok ⟨1, ['A'], ['M'], 0⟩
      ∧ (⟨1, ['A'], ['M'], 0⟩ : Mutation) ≠ ⟨1, ['A'], ['M'], 1⟩)
    ∧ (MutationSet.toChars ([] : List Mutation) = []
      ∧ MutationSet.from_string (MutationSet.toChars ([] : List Mutation)) true
          = .error .formatErr)
    ∧ Mutation.from_string (Mutation.toChars ⟨1, [], ['T'], -1⟩) true
        = .error .formatErr := by
  decide

/-- C7, counterexample: for the child of root `MAGV` carrying the edit
`A2[TM]` (materializing to `MTMGV`), `cut_parent` freezes the PARENT's
materialized sequence `MAGV` as the new literal base — not the child's
own pre-detachment materialized sequence `MTMGV` as the claim states
(the child keeps its edit set, so its materialized sequence is
nevertheless unchanged). -/
theorem claim_c7_counterexample :
    World.materialize
      [⟨some "MAGV".toList, none, [], true, [1]⟩,
       ⟨none, some 0, [⟨1, ['A'], ['T', 'M'], 0⟩], true, []⟩] 1
      = some "MTMGV".toList
    ∧ (World.cut_parent
        [⟨some "MAGV".toList, none, [], true, [1]⟩,
         ⟨none, some 0, [⟨1, ['A'], ['T', 'M'], 0⟩], true, []⟩] 1).map
        (fun w2 => w2[1]?.map Variant.base)
      = .ok (some (some "MAGV".toList))
    ∧ ("MAGV".toList : List Char) ≠ "MTMGV".toList := by
  decide

/-- C8, counterexample: edit validation bounds an insertion position by
the variant's MATERIALIZED length `len(str(variant))`, not by the length
of the base sequence the edit is applied to.  For a variant with base
`MAGV` (length 4) already carrying the deletion `A1[-]` (materialized
length 3), the insertion at position 4 is rejected although its position
does not exceed the base-sequence length; `add_mutations` on such a
variant raises the invalid-reference error accordingly. -/
theorem claim_c8_counterexample :
    (⟨4, [], ['T'], 0⟩ : Mutation).position ≤ "MAGV".toList.length
    ∧ Mutation.check_validity ⟨4, [], ['T'], 0⟩ "MAGV".toList
        (MutationSet.get_variant_str [⟨1, ['A'], ['-'], 0⟩] "MAGV".toList).length
      = false
    ∧ World.add_mutations (World.root "MAGV".toList [⟨1, ['A'], ['-'], 0⟩])
        0 [⟨4, [], ['T'], 0⟩]
      = .error .invalidRef := by
  decide

/-- C9, counterexample: a pair made of a deletion and an insertion at
the SAME position (a set the positional invariants allow) is not flushed
as a mixed insertion-deletion pair: the same-position branch of the
aggregation loop merges any two same-position edits unconditionally, so
constructing the set `{A1[-], 1>1T}` with aggregation enabled yields the
single merged edit `A1[-T]` rather than keeping both edits. -/
theorem claim_c9_counterexample :
    MutationSet.makeAgg [⟨1, ['A'], ['-'], 0⟩, ⟨1, [], ['T'], 1⟩]
      = .ok [⟨1, ['A'], ['-', 'T'], 0⟩]
    ∧ ([⟨1, ['A'], ['-', 'T'], 0⟩] : List Mutation)
      ≠ canon [⟨1, ['A'], ['-'], 0⟩, ⟨1, [], ['T'], 1⟩] := by
  decide

/-- Every decimal digit below ten renders to a digit character. -/
theorem digitChar_isDigit {d : Nat} (h : d < 10) :
    isDigitChar (digitChar d) = true := by
  interval_cases d <;> decide

/-- Rendering then revaluing a decimal digit is the identity. -/
theorem digitVal_digitChar {d : Nat} (h : d < 10) :
    digitVal (digitChar d) = d := by
  interval_cases d <;> decide

/-- All characters produced by the digit extractor are digit characters. -/
theorem natToCharsAux_digits :
    ∀ fuel n, ∀ c ∈ natToCharsAux fuel n, isDigitChar c = true := by
  intro fuel
  induction fuel with
  | zero => intro n c hc; simp [natToCharsAux] at hc
  | succ fuel ih =>
    intro n c hc
    by_cases h0 : n = 0
    · simp [natToCharsAux, h0] at hc
    · simp only [natToCharsAux, if_neg h0, List.mem_append,
        List.mem_singleton] at hc
      rcases hc with hc | hc
      · exact ih _ c hc
      · subst hc; exact digitChar_isDigit (Nat.mod_lt _ (by omega))

/-- All characters of a rendered natural number are digit characters. -/
theorem natToChars_digits {n : Nat} : ∀ c ∈ natToChars n, isDigitChar c = true := by
  intro c hc
  by_cases h0 : n = 0
  · simp [natToChars, h0] at hc; subst hc; decide
  · simp only [natToChars, if_neg h0] at hc
    exact natToCharsAux_digits _ _ c hc

/-- A rendered natural number is never the empty string. -/
theorem natToChars_ne_nil {n : Nat} : natToChars n ≠ [] := by
  by_cases h0 : n = 0
  · simp [natToChars, h0]
  · have h1 : 0 < n := Nat.pos_of_ne_zero h0
    simp only [natToChars, if_neg h0]
    cases n with
    | zero => omega
    | succ k => simp [natToCharsAux]

/-- Folding the digit-value accumulator over the digit extractor
reconstructs the number. -/
theorem foldl_natToCharsAux :
    ∀ fuel n a, n ≤ fuel →
      (natToCharsAux fuel n).foldl (fun a c => 10 * a + digitVal c) a
        = a * 10 ^ (natToCharsAux fuel n).length + n := by
  intro fuel
  induction fuel with
  | zero =>
    intro n a h
    have : n = 0 := by omega
    subst this; simp [natToCharsAux]
  | succ fuel ih =>
    intro n a h
    by_cases h0 : n = 0
    · subst h0; simp [natToCharsAux]
    · have hdiv : n / 10 ≤ fuel := by
        have : n / 10 < n := Nat.div_lt_self (Nat.pos_of_ne_zero h0) (by omega)
        omega
      simp only [natToCharsAux, if_neg h0, List.foldl_append, List.foldl_cons,
        List.foldl_nil, List.length_append, List.length_cons, List.length_nil]
      rw [ih _ a hdiv, digitVal_digitChar (Nat.mod_lt _ (by omega))]
      have hmod := Nat.div_add_mod n 10
      ring_nf
      omega

/-- Parsing back a rendered natural number gives the number. -/
theorem charsToNat_natToChars (n : Nat) : charsToNat (natToChars n) = n := by
  by_cases h0 : n = 0
  · subst h0; decide
  · simp only [charsToNat, natToChars, if_neg h0]
    rw [foldl_natToCharsAux (n + 1) n 0 (by omega)]
    simp

/-- Applying `takeWhile` over an append whose left part satisfies the predicate
and whose right part starts with a failing character keeps exactly the
left part. -/
theorem takeWhile_append_of {p : Char → Bool} :
    ∀ (A B : List Char), (∀ c ∈ A, p c = true) →
      (∀ c, B.head? = some c → p c = false) →
      (A ++ B).takeWhile p = A := by
  intro A
  induction A with
  | nil =>
    intro B _ hB
    cases B with
    | nil => rfl
    | cons b t => simp [List.takeWhile_cons, hB b rfl]
  | cons a as ih =>
    intro B hA hB
    simp only [List.cons_append, List.takeWhile_cons,
      hA a (List.mem_cons_self a as), if_true]
    rw [ih B (fun c hc => hA c (List.mem_cons_of_mem a hc)) hB]

/-- Applying `dropWhile` over such an append drops exactly the left part. -/
theorem dropWhile_append_of {p : Char → Bool} :
    ∀ (A B : List Char), (∀ c ∈ A, p c = true) →
      (∀ c, B.head? = some c → p c = false) →
      (A ++ B).dropWhile p = B := by
  intro A
  induction A with
  | nil =>
    intro B _ hB
    cases B with
    | nil => rfl
    | cons b t => simp [List.dropWhile_cons, hB b rfl]
  | cons a as ih =>
    intro B hA hB
    simp only [List.cons_append, List.dropWhile_cons,
      hA a (List.mem_cons_self a as), if_true]
    exact ih B (fun c hc => hA c (List.mem_cons_of_mem a hc)) hB

/-- A digit character is not a ref-class character, not a bracket, not a
closing bracket, and not the arrow. -/
theorem digit_not_refclass {c : Char} (h : isDigitChar c = true) :
    isRefChar c = false ∧ isAltChar c = false ∧ c ≠ '[' ∧ c ≠ ']' := by
  simp only [isDigitChar, decide_eq_true_eq] at h
  refine ⟨?_, ?_, ?_, ?_⟩
  · simp only [isRefChar, isUpperChar, Bool.or_eq_false_iff,
      decide_eq_false_iff_not]
    constructor
    · omega
    · intro hc; subst hc; simp at h
  · simp only [isAltChar, isUpperChar, Bool.or_eq_false_iff,
      decide_eq_false_iff_not]
    constructor
    · omega
    · intro hc; subst hc; simp at h
  · intro hc; subst hc; simp at h
  · intro hc; subst hc; simp at h

/-- An upper-case letter is not a digit, a bracket, the arrow, or a
semicolon. -/
theorem upper_facts {c : Char} (h : isUpperChar c = true) :
    isDigitChar c = false ∧ isRefChar c = true ∧ isAltChar c = true
    ∧ c ≠ '[' ∧ c ≠ ']' ∧ c ≠ '>' ∧ c ≠ ';' ∧ c ≠ '-' := by
  have hv : 65 ≤ c.toNat ∧ c.toNat ≤ 90 := by
    simpa only [isUpperChar, decide_eq_true_eq] using h
  refine ⟨?_, ?_, ?_, ?_, ?_, ?_, ?_, ?_⟩
  · simp only [isDigitChar, decide_eq_false_iff_not]; omega
  · simp [isRefChar, h]
  · simp [isAltChar, h]
  all_goals intro hc; subst hc; simp at hv

/-- An alt-class character is not a digit and not a bracket. -/
theorem altclass_facts {c : Char} (h : isAltChar c = true) :
    isDigitChar c = false ∧ c ≠ '[' ∧ c ≠ ']' ∧ c ≠ ';' := by
  simp only [isAltChar, Bool.or_eq_true, decide_eq_true_eq] at h
  rcases h with h | h
  · have := upper_facts h
    exact ⟨this.1, this.2.2.2.1, this.2.2.2.2.1, this.2.2.2.2.2.2.1⟩
  · subst h
    refine ⟨by decide, by decide, by decide, by decide⟩

/-- The order group does not match when the input does not start with a
digit. -/
theorem parseOrder_none {s : List Char}
    (h : ∀ c, s.head? = some c → isDigitChar c = false) :
    parseOrder s = (none, s) := by
  have hds : s.takeWhile isDigitChar = [] := by
    cases s with
    | nil => rfl
    | cons c t => simp [List.takeWhile_cons, h c rfl]
  simp [parseOrder, hds]

/-- The order group consumes a rendered number followed by the arrow. -/
theorem parseOrder_some (n : Nat) (t : List Char) :
    parseOrder (natToChars n ++ '>' :: t) = (some n, t) := by
  have harrow : ∀ c, (('>' :: t) : List Char).head? = some c →
      isDigitChar c = false := by
    intro c hc
    simp only [List.head?] at hc
    cases hc; decide
  have htake := takeWhile_append_of (natToChars n) ('>' :: t)
    (fun c hc => natToChars_digits c hc) harrow
  have hdrop := dropWhile_append_of (natToChars n) ('>' :: t)
    (fun c hc => natToChars_digits c hc) harrow
  simp [parseOrder, htake, hdrop, natToChars_ne_nil, charsToNat_natToChars]

/-- A bracket group does not match when the head is neither `[` nor a
body character. -/
theorem parseGroup_none {isB : Char → Bool} {s : List Char}
    (h : ∀ c, s.head? = some c → (isB c = false ∧ c ≠ '[')) :
    parseGroup isB s = (none, s) := by
  cases s with
  | nil => rfl
  | cons c t =>
    have hc := h c rfl
    have h1 : ¬((c :: t).head? = some '[') := by simp [hc.2]
    have hds : (c :: t).takeWhile isB = [] := by
      simp [List.takeWhile_cons, hc.1]
    rw [parseGroup, if_neg h1, if_pos hds]

/-- A bracket group matches a plain nonempty body run followed by a rest
that opens with neither a body character nor a closing bracket. -/
theorem parseGroup_plain {isB : Char → Bool} {body rest : List Char}
    (hb : body ≠ []) (hall : ∀ c ∈ body, isB c = true)
    (hBr : isB '[' = false)
    (hrest : ∀ c, rest.head? = some c → (isB c = false ∧ c ≠ ']')) :
    parseGroup isB (body ++ rest) = (some body, rest) := by
  obtain ⟨c0, b2, rfl⟩ := List.exists_cons_of_ne_nil hb
  have hc0 : isB c0 = true := hall c0 (List.mem_cons_self _ _)
  have hc0br : c0 ≠ '[' := by
    intro hx; rw [hx] at hc0; rw [hBr] at hc0; exact Bool.false_ne_true hc0
  have htake := takeWhile_append_of (c0 :: b2) rest hall
    (fun c hc => (hrest c hc).1)
  have hdrop := dropWhile_append_of (c0 :: b2) rest hall
    (fun c hc => (hrest c hc).1)
  rw [List.cons_append] at htake hdrop ⊢
  have h1 : ¬((c0 :: (b2 ++ rest)).head? = some '[') := by simp [hc0br]
  have hrb : ¬(rest.head? = some ']') := fun hx => (hrest _ hx).2 rfl
  rw [parseGroup, if_neg h1, htake, hdrop,
    if_neg (List.cons_ne_nil c0 b2), if_neg hrb]

/-- A bracket group matches a bracketed nonempty body run, consuming the
closing bracket. -/
theorem parseGroup_bracketed {isB : Char → Bool} {body rest : List Char}
    (hb : body ≠ []) (hall : ∀ c ∈ body, isB c = true)
    (hRB : isB ']' = false) :
    parseGroup isB ('[' :: (body ++ ']' :: rest)) = (some body, rest) := by
  have hclose : ∀ c, ((']' :: rest) : List Char).head? = some c →
      isB c = false := by
    intro c hc
    simp only [List.head?] at hc
    cases hc; exact hRB
  have htake := takeWhile_append_of body (']' :: rest) hall hclose
  have hdrop := dropWhile_append_of body (']' :: rest) hall hclose
  have h1 : (('[' :: (body ++ ']' :: rest)) : List Char).head? = some '[' := rfl
  rw [parseGroup, if_pos h1]
  simp only [List.tail_cons]
  rw [htake, hdrop, if_neg hb]
  simp

/-- The head of a rendered number followed by anything is a digit. -/
theorem head_natToChars_append {n : Nat} {B : List Char} :
    ∀ c, ((natToChars n ++ B).head? = some c) → isDigitChar c = true := by
  intro c hc
  obtain ⟨c0, t, he⟩ := List.exists_cons_of_ne_nil (natToChars_ne_nil (n := n))
  rw [he, List.cons_append] at hc
  simp only [List.head?] at hc
  cases hc
  exact natToChars_digits _ (he ▸ List.mem_cons_self _ _)

/-- Parsing inverts formatting on well-formed edits. -/
theorem roundtrip_single (m : Mutation) (h : validEdit m) :
    Mutation.from_string m.toChars true = .ok m := by
  obtain ⟨pos, ref, alt, ord⟩ := m
  obtain ⟨href, haltne, haltc, hord⟩ := h
  simp only at href haltne haltc hord
  -- the alt segment always parses to the replacement with empty remainder
  have hAltGroup :
      parseGroup isAltChar
        (if alt.length = 1 then alt else '[' :: alt ++ [']'])
        = (some alt, []) := by
    by_cases h1 : alt.length = 1
    · rw [if_pos h1]
      have := @parseGroup_plain isAltChar alt []
        haltne haltc (by decide) (fun c hc => by simp at hc)
      simpa using this
    · rw [if_neg h1]
      have := @parseGroup_bracketed isAltChar alt [] haltne haltc (by decide)
      simpa using this
  have hAltHead : ∀ c,
      ((if alt.length = 1 then alt else '[' :: alt ++ [']']).head? = some c) →
      isDigitChar c = false := by
    intro c hc
    by_cases h1 : alt.length = 1
    · rw [if_pos h1] at hc
      obtain ⟨c0, t, he⟩ := List.exists_cons_of_ne_nil haltne
      rw [he] at hc
      simp only [List.head?] at hc
      cases hc
      exact (altclass_facts (haltc _ (he ▸ List.mem_cons_self _ _))).1
    · rw [if_neg h1] at hc
      simp only [List.cons_append, List.head?] at hc
      cases hc
      decide
  -- the position digits followed by the alt segment
  have hMid : ∀ c,
      ((natToChars pos ++
        (if alt.length = 1 then alt else '[' :: alt ++ [']'])).head? = some c) →
      isDigitChar c = true := head_natToChars_append
  have hTakeMid :
      (natToChars pos ++
        (if alt.length = 1 then alt else '[' :: alt ++ [']'])).takeWhile
          isDigitChar = natToChars pos :=
    takeWhile_append_of _ _ (fun c hc => natToChars_digits c hc) hAltHead
  have hDropMid :
      (natToChars pos ++
        (if alt.length = 1 then alt else '[' :: alt ++ [']'])).dropWhile
          isDigitChar
        = (if alt.length = 1 then alt else '[' :: alt ++ [']']) :=
    dropWhile_append_of _ _ (fun c hc => natToChars_digits c hc) hAltHead
  by_cases hins : ref = []
  · -- insertion: order digits, arrow, position digits, alt
    subst hins
    rw [if_pos rfl] at hord
    have hfmt : Mutation.toChars ⟨pos, [], alt, ord⟩
        = natToChars ord.toNat ++ '>' ::
          (natToChars pos ++
            (if alt.length = 1 then alt else '[' :: alt ++ [']'])) := by
      simp only [Mutation.toChars, List.length_nil, if_neg (by omega : ¬(0 = 1)),
        if_pos rfl, intToChars, if_neg (by omega : ¬(ord < 0))]
      simp [List.append_assoc]
    rw [Mutation.from_string, hfmt]
    have hOrder := parseOrder_some ord.toNat
      (natToChars pos ++ (if alt.length = 1 then alt else '[' :: alt ++ [']']))
    have hRefGroup : parseGroup isRefChar
        (natToChars pos ++ (if alt.length = 1 then alt else '[' :: alt ++ [']']))
        = (none, natToChars pos ++
            (if alt.length = 1 then alt else '[' :: alt ++ [']'])) :=
      parseGroup_none (fun c hc => by
        have hd := hMid c hc
        exact ⟨(digit_not_refclass hd).1, (digit_not_refclass hd).2.2.1⟩)
    simp only [parseMutationString, hOrder, hRefGroup, hTakeMid, hDropMid,
      hAltGroup]
    rw [if_neg natToChars_ne_nil]
    simp only [charsToNat_natToChars]
    simp [Int.toNat_of_nonneg hord]
  · -- non-insertion
    rw [if_neg hins] at hord
    by_cases hone : ref.length = 1
    · -- single-residue reference, rendered unbracketed
      obtain ⟨r0, rtail, he⟩ := List.exists_cons_of_ne_nil hins
      subst he
      have : rtail = [] := by
        simpa using hone
      subst this
      have hup : isUpperChar r0 = true := href r0 (List.mem_cons_self _ _)
      have hfmt : Mutation.toChars ⟨pos, [r0], alt, ord⟩
          = [r0] ++ (natToChars pos ++
              (if alt.length = 1 then alt else '[' :: alt ++ [']'])) := by
        simp only [Mutation.toChars]
        simp [List.append_assoc]
      rw [Mutation.from_string, hfmt]
      have hOrder : parseOrder ([r0] ++ (natToChars pos ++
          (if alt.length = 1 then alt else '[' :: alt ++ [']'])))
          = (none, [r0] ++ (natToChars pos ++
            (if alt.length = 1 then alt else '[' :: alt ++ [']']))) := by
        apply parseOrder_none
        intro c hc
        simp only [List.cons_append, List.head?] at hc
        cases hc
        exact (upper_facts hup).1
      have hRefGroup : parseGroup isRefChar ([r0] ++ (natToChars pos ++
          (if alt.length = 1 then alt else '[' :: alt ++ [']'])))
          = (some [r0], natToChars pos ++
            (if alt.length = 1 then alt else '[' :: alt ++ [']'])) := by
        apply parseGroup_plain (by simp)
          (by intro c hc; simp at hc; subst hc; exact (upper_facts hup).2.1)
          (by decide)
        intro c hc
        have hd := hMid c hc
        exact ⟨(digit_not_refclass hd).1, (digit_not_refclass hd).2.2.2⟩
      simp only [parseMutationString, hOrder, hRefGroup, hTakeMid, hDropMid,
        hAltGroup]
      rw [if_neg natToChars_ne_nil]
      simp only [charsToNat_natToChars]
      have hnotarrow : ([r0] : List Char) ≠ ['>'] := by
        intro hx
        have : r0 = '>' := by simpa using hx
        exact (upper_facts hup).2.2.2.2.2.1 this
      simp [hnotarrow, hord]
    · -- multi-residue reference, rendered bracketed
      have hfmt : Mutation.toChars ⟨pos, ref, alt, ord⟩
          = '[' :: (ref ++ ']' :: (natToChars pos ++
              (if alt.length = 1 then alt else '[' :: alt ++ [']']))) := by
        simp only [Mutation.toChars]
        rw [if_neg hone, if_neg hins]
        simp [List.append_assoc]
      rw [Mutation.from_string, hfmt]
      have hOrder : parseOrder ('[' :: (ref ++ ']' :: (natToChars pos ++
          (if alt.length = 1 then alt else '[' :: alt ++ [']']))))
          = (none, '[' :: (ref ++ ']' :: (natToChars pos ++
            (if alt.length = 1 then alt else '[' :: alt ++ [']'])))) := by
        apply parseOrder_none
        intro c hc
        simp only [List.head?] at hc
        cases hc
        decide
      have hRefGroup := @parseGroup_bracketed isRefChar ref
        (natToChars pos ++
          (if alt.length = 1 then alt else '[' :: alt ++ [']']))
        hins (fun c hc => (upper_facts (href c hc)).2.1) (by decide)
      simp only [parseMutationString, hOrder, hRefGroup, hTakeMid, hDropMid,
        hAltGroup]
      rw [if_neg natToChars_ne_nil]
      simp only [charsToNat_natToChars]
      have hnotarrow : ref ≠ ['>'] := by
        intro hx
        have hmem : '>' ∈ ref := by rw [hx]; exact List.mem_cons_self _ _
        exact absurd (href '>' hmem) (by decide)
      simp [hnotarrow, hord]

/-- A digit character is not a semicolon. -/
theorem digit_ne_semi {c : Char} (h : isDigitChar c = true) : c ≠ ';' :=
  fun hx => absurd (hx ▸ h) (by decide)

/-- The rendering of a well-formed edit never contains a semicolon, so
semicolon-joined multi-edit strings split back into the same tokens. -/
theorem toChars_no_semi {m : Mutation} (h : validEdit m) :
    ∀ c ∈ m.toChars, c ≠ ';' := by
  obtain ⟨pos, ref, alt, ord⟩ := m
  obtain ⟨href, haltne, haltc, hord⟩ := h
  simp only at href haltne haltc hord
  intro c hc
  simp only [Mutation.toChars, List.append_assoc, List.mem_append] at hc
  rcases hc with hc | hc | hc
  · by_cases h1 : ref.length = 1
    · rw [if_pos h1] at hc
      exact (upper_facts (href c hc)).2.2.2.2.2.2.1
    · by_cases h2 : ref = []
      · rw [if_neg h1, if_pos h2] at hc
        rw [if_pos h2] at hord
        rw [intToChars, if_neg (not_lt.mpr hord)] at hc
        rcases List.mem_append.mp hc with hc | hc
        · exact digit_ne_semi (natToChars_digits c hc)
        · simp only [List.mem_singleton] at hc; subst hc; decide
      · rw [if_neg h1, if_neg h2] at hc
        rcases List.mem_cons.mp hc with hc | hc
        · subst hc; decide
        · rcases List.mem_append.mp hc with hc | hc
          · exact (upper_facts (href c hc)).2.2.2.2.2.2.1
          · simp only [List.mem_singleton] at hc; subst hc; decide
  · exact digit_ne_semi (natToChars_digits c hc)
  · by_cases h1 : alt.length = 1
    · rw [if_pos h1] at hc
      exact (altclass_facts (haltc c hc)).2.2.2
    · rw [if_neg h1] at hc
      rcases List.mem_cons.mp hc with hc | hc
      · subst hc; decide
      · rcases List.mem_append.mp hc with hc | hc
        · exact (altclass_facts (haltc c hc)).2.2.2
        · simp only [List.mem_singleton] at hc; subst hc; decide

/-- Splitting never yields an empty token list. -/
theorem splitSemi_ne_nil : ∀ s : List Char, splitSemi s ≠ [] := by
  intro s
  induction s with
  | nil => simp [splitSemi]
  | cons c t ih =>
    by_cases hc : c = ';'
    · simp [splitSemi, hc]
    · simp only [splitSemi, if_neg hc]
      cases hsplit : splitSemi t with
      | nil => exact absurd hsplit ih
      | cons u us => simp

/-- A semicolon-free string splits into itself as a single token. -/
theorem splitSemi_single {t : List Char} (h : ∀ c ∈ t, c ≠ ';') :
    splitSemi t = [t] := by
  induction t with
  | nil => rfl
  | cons c r ih =>
    have hc : c ≠ ';' := h c (List.mem_cons_self _ _)
    have hr := ih (fun x hx => h x (List.mem_cons_of_mem _ hx))
    simp only [splitSemi, if_neg hc, hr]

/-- Splitting a semicolon-free token, a semicolon, and a remainder
peels off the token. -/
theorem splitSemi_append {t J : List Char} (h : ∀ c ∈ t, c ≠ ';') :
    splitSemi (t ++ ';' :: J) = t :: splitSemi J := by
  induction t with
  | nil => simp [splitSemi]
  | cons c r ih =>
    have hc : c ≠ ';' := h c (List.mem_cons_self _ _)
    have hr := ih (fun x hx => h x (List.mem_cons_of_mem _ hx))
    simp only [List.cons_append, splitSemi, if_neg hc, List.append_eq, hr]

/-- Splitting inverts joining on nonempty semicolon-free token lists. -/
theorem splitSemi_joinSemi :
    ∀ ts : List (List Char), ts ≠ [] →
      (∀ t ∈ ts, ∀ c ∈ t, c ≠ ';') →
      splitSemi (joinSemi ts) = ts := by
  intro ts
  induction ts with
  | nil => intro h; exact absurd rfl h
  | cons t rest ih =>
    intro _ h
    cases rest with
    | nil =>
      rw [joinSemi]
      exact splitSemi_single (h t (List.mem_cons_self _ _))
    | cons t2 r2 =>
      have h2 := ih (List.cons_ne_nil t2 r2)
        (fun u hu => h u (List.mem_cons_of_mem _ hu))
      rw [joinSemi, splitSemi_append (h t (List.mem_cons_self _ _)), h2]
      exact fun hx => List.noConfusion hx

/-- Parsing the rendered tokens of well-formed edits recovers the edits. -/
theorem exceptMapM_toChars :
    ∀ s : List Mutation, (∀ m ∈ s, validEdit m) →
      exceptMapM (fun t => Mutation.from_string t true)
        (s.map Mutation.toChars) = .ok s := by
  intro s
  induction s with
  | nil => intro _; rfl
  | cons m rest ih =>
    intro h
    simp only [List.map_cons, exceptMapM,
      roundtrip_single m (h m (List.mem_cons_self _ _)),
      ih (fun x hx => h x (List.mem_cons_of_mem _ hx))]
    rfl

/-- C5, amended: parsing inverts formatting on the domain the grammar
can serialize.  For every well-formed edit — residue-letter reference
(empty exactly for insertions), nonempty replacement, and an order that
is non-negative for insertions and zero for non-insertions (the
formatter prints `order` only for insertions, and the parser defaults it
to zero) — `Mutation.from_string(str(e), zero_indexed=True)` returns the
edit itself; and every NONEMPTY validated edit set of such edits (in
canonical membership order) round-trips through
`MutationSet.from_string(str(s), zero_indexed=True)`. -/
theorem claim_c5_amended :
    (∀ m : Mutation, validEdit m →
      Mutation.from_string m.toChars true = .ok m)
    ∧ (∀ s : List Mutation, s ≠ [] → canon s = s → checkUniqueOk s = true →
      (∀ m ∈ s, validEdit m) →
      MutationSet.from_string (MutationSet.toChars s) true = .ok s) := by
  constructor
  · exact roundtrip_single
  · intro s hne hcanon huniq hvalid
    have htoks : splitSemi (MutationSet.toChars s) = s.map Mutation.toChars := by
      rw [MutationSet.toChars, hcanon]
      apply splitSemi_joinSemi
      · intro hx
        exact hne (List.map_eq_nil_iff.mp hx)
      · intro u hu c hc
        obtain ⟨m, hm, rfl⟩ := List.mem_map.mp hu
        exact toChars_no_semi (hvalid m hm) c hc
    rw [MutationSet.from_string, htoks, exceptMapM_toChars s hvalid]
    show MutationSet.make s = .ok s
    rw [MutationSet.make, hcanon, if_pos huniq]

/-- Witness for the amended C5 round trip at concrete inputs: a
substitution edit, an insertion with a positive order, and the
two-element 0-indexed edit set of `A1[TM]` and `G2[ST]`. -/
theorem claim_c5_amended_witness :
    Mutation.from_string (Mutation.toChars ⟨0, [], ['T'], 2⟩) true
      = .ok ⟨0, [], ['T'], 2⟩
    ∧ MutationSet.from_string
        (MutationSet.toChars [⟨1, ['A'], ['T', 'M'], 0⟩, ⟨2, ['G'], ['S', 'T'], 0⟩])
        true
      = .ok [⟨1, ['A'], ['T', 'M'], 0⟩, ⟨2, ['G'], ['S', 'T'], 0⟩] :=
  ⟨claim_c5_amended.1 ⟨0, [], ['T'], 2⟩ (by decide),
   claim_c5_amended.2 [⟨1, ['A'], ['T', 'M'], 0⟩, ⟨2, ['G'], ['S', 'T'], 0⟩]
     (by decide) (by decide) (by decide) (by decide)⟩

/-- Characters with equal code points are equal. -/
theorem char_toNat_inj {a b : Char} (h : a.toNat = b.toNat) : a = b :=
  Char.ofNat_toNat a ▸ Char.ofNat_toNat b ▸ congrArg Char.ofNat h

/-- The lexicographic character order is irreflexive. -/
theorem charsLt_irrefl : ∀ l : List Char, charsLt l l = false := by
  intro l
  induction l with
  | nil => rfl
  | cons a as ih => simp [charsLt, ih]

/-- The lexicographic character order is connex on distinct lists. -/
theorem charsLt_connex :
    ∀ a b : List Char, a ≠ b → charsLt a b = true ∨ charsLt b a = true := by
  intro a
  induction a with
  | nil =>
    intro b hne
    cases b with
    | nil => exact absurd rfl hne
    | cons c cs => left; rfl
  | cons x xs ih =>
    intro b hne
    cases b with
    | nil => right; rfl
    | cons y ys =>
      rcases Nat.lt_trichotomy x.toNat y.toNat with hlt | heq | hgt
      · left; simp [charsLt, hlt]
      · have hxy : x = y := char_toNat_inj heq
        subst hxy
        have htail : xs ≠ ys := fun hx => hne (by rw [hx])
        rcases ih ys htail with h | h
        · left; simp [charsLt, h]
        · right; simp [charsLt, h]
      · right; simp [charsLt, hgt, Nat.lt_asymm hgt]

/-- The lexicographic character order is transitive. -/
theorem charsLt_trans :
    ∀ a b c : List Char, charsLt a b = true → charsLt b c = true →
      charsLt a c = true := by
  intro a
  induction a with
  | nil =>
    intro b c hab hbc
    cases c with
    | nil =>
      cases b with
      | nil => simp [charsLt] at hbc
      | cons y ys => simp [charsLt] at hbc
    | cons z zs => rfl
  | cons x xs ih =>
    intro b c hab hbc
    cases b with
    | nil => simp [charsLt] at hab
    | cons y ys =>
      cases c with
      | nil => simp [charsLt] at hbc
      | cons z zs =>
        simp only [charsLt] at hab hbc ⊢
        rcases Nat.lt_trichotomy x.toNat y.toNat with h1 | h1 | h1
        · rcases Nat.lt_trichotomy y.toNat z.toNat with h2 | h2 | h2
          · simp [show x.toNat < z.toNat by omega]
          · simp [show x.toNat < z.toNat by omega]
          · rw [if_neg (by omega), if_pos (by omega)] at hbc
            exact absurd hbc (by simp)
        · have hxy := char_toNat_inj h1
          subst hxy
          rw [if_neg (by omega), if_neg (by omega)] at hab
          rcases Nat.lt_trichotomy x.toNat z.toNat with h2 | h2 | h2
          · simp [h2]
          · have hxz := char_toNat_inj h2
            subst hxz
            rw [if_neg (by omega), if_neg (by omega)] at hbc
            rw [if_neg (by omega), if_neg (by omega)]
            exact ih ys zs hab hbc
          · rw [if_neg (by omega), if_pos (by omega)] at hbc
            exact absurd hbc (by simp)
        · rw [if_neg (by omega), if_pos (by omega)] at hab
          exact absurd hab (by simp)

/-- The canonical mutation order is irreflexive. -/
theorem mutLt_irrefl (a : Mutation) : mutLt a a = false := by
  simp [mutLt, charsLt_irrefl]

/-- The canonical mutation order is connex on distinct mutations. -/
theorem mutLt_connex {a b : Mutation} (h : a ≠ b) :
    mutLt a b = true ∨ mutLt b a = true := by
  obtain ⟨pa, ra, aa, oa⟩ := a
  obtain ⟨pb, rb, ab, ob⟩ := b
  rcases Nat.lt_trichotomy pa pb with hp | hp | hp
  · left; simp [mutLt, hp]
  · subst hp
    rcases Int.lt_trichotomy oa ob with ho | ho | ho
    · left; simp [mutLt, ho]
    · subst ho
      by_cases hr : ra = rb
      · subst hr
        have halt : aa ≠ ab := by
          intro hx; exact h (by rw [hx])
        rcases charsLt_connex aa ab halt with hc | hc
        · left; simp [mutLt, hc]
        · right; simp [mutLt, hc]
      · rcases charsLt_connex ra rb hr with hc | hc
        · left; simp [mutLt, hc]
        · right; simp [mutLt, hc]
    · right; simp [mutLt, ho]
  · right; simp [mutLt, hp]

/-- The canonical mutation order is transitive. -/
theorem mutLt_trans {a b c : Mutation} (hab : mutLt a b = true)
    (hbc : mutLt b c = true) : mutLt a c = true := by
  obtain ⟨pa, ra, aa, oa⟩ := a
  obtain ⟨pb, rb, ab, ob⟩ := b
  obtain ⟨pc, rc, ac, oc⟩ := c
  simp only [mutLt, Bool.or_eq_true, Bool.and_eq_true, decide_eq_true_eq] at hab hbc ⊢
  rcases hab with hab | ⟨hpab, hab⟩
  · rcases hbc with hbc | ⟨hpbc, hbc⟩
    · exact Or.inl (Nat.lt_trans hab hbc)
    · exact Or.inl (hpbc ▸ hab)
  · rcases hbc with hbc | ⟨hpbc, hbc⟩
    · exact Or.inl (hpab ▸ hbc)
    · refine Or.inr ⟨hpab.trans hpbc, ?_⟩
      rcases hab with hab | ⟨hoab, hab⟩
      · rcases hbc with hbc | ⟨hobc, hbc⟩
        · exact Or.inl (Int.lt_trans hab hbc)
        · exact Or.inl (hobc ▸ hab)
      · rcases hbc with hbc | ⟨hobc, hbc⟩
        · exact Or.inl (hoab ▸ hbc)
        · refine Or.inr ⟨hoab.trans hobc, ?_⟩
          rcases hab with hab | ⟨hrab, hab⟩
          · rcases hbc with hbc | ⟨hrbc, hbc⟩
            · exact Or.inl (charsLt_trans _ _ _ hab hbc)
            · exact Or.inl (hrbc ▸ hab)
          · rcases hbc with hbc | ⟨hrbc, hbc⟩
            · exact Or.inl (hrab ▸ hbc)
            · exact Or.inr ⟨hrab.trans hrbc, charsLt_trans _ _ _ hab hbc⟩

/-- Strict order gives distinctness. -/
theorem mutLt_ne {a b : Mutation} (h : mutLt a b = true) : a ≠ b := by
  intro hx
  subst hx
  rw [mutLt_irrefl] at h
  exact Bool.false_ne_true h

/-- Canonical insertion of an element already present. -/
theorem insertCanon_cons_eq {m a : Mutation} {as : List Mutation} (h : m = a) :
    insertCanon m (a :: as) = a :: as := by
  simp [insertCanon, h]

/-- Canonical insertion before a larger head. -/
theorem insertCanon_cons_lt {m a : Mutation} {as : List Mutation}
    (h1 : m ≠ a) (h2 : mutLt m a = true) :
    insertCanon m (a :: as) = m :: a :: as := by
  simp [insertCanon, h1, h2]

/-- Canonical insertion past a smaller head. -/
theorem insertCanon_cons_gt {m a : Mutation} {as : List Mutation}
    (h1 : m ≠ a) (h2 : ¬ mutLt m a = true) :
    insertCanon m (a :: as) = a :: insertCanon m as := by
  simp [insertCanon, h1, h2]

/-- Membership through a canonical insertion. -/
theorem mem_insertCanon {x m : Mutation} :
    ∀ l : List Mutation, (x ∈ insertCanon m l ↔ x = m ∨ x ∈ l) := by
  intro l
  induction l with
  | nil => simp [insertCanon]
  | cons a as ih =>
    by_cases h1 : m = a
    · rw [insertCanon_cons_eq h1]
      subst h1
      simp only [List.mem_cons]
      tauto
    · by_cases h2 : mutLt m a = true
      · rw [insertCanon_cons_lt h1 h2]
        simp only [List.mem_cons]
      · rw [insertCanon_cons_gt h1 h2]
        simp only [List.mem_cons, ih]
        tauto

/-- Canonical insertion preserves strict sortedness. -/
theorem insertCanon_ordered {m : Mutation} :
    ∀ l : List Mutation, orderedMuts l → orderedMuts (insertCanon m l) := by
  intro l
  induction l with
  | nil => intro _; simp [insertCanon, orderedMuts]
  | cons a as ih =>
    intro h
    simp only [orderedMuts, List.pairwise_cons] at h
    by_cases h1 : m = a
    · rw [insertCanon_cons_eq h1]
      simp only [orderedMuts, List.pairwise_cons]
      exact h
    · by_cases h2 : mutLt m a = true
      · rw [insertCanon_cons_lt h1 h2]
        simp only [orderedMuts, List.pairwise_cons]
        refine ⟨?_, h.1, h.2⟩
        intro x hx
        rcases List.mem_cons.mp hx with hx | hx
        · subst hx; exact h2
        · exact mutLt_trans h2 (h.1 x hx)
      · have h3 : mutLt a m = true := by
          rcases mutLt_connex (a := m) (b := a) h1 with hx | hx
          · exact absurd hx h2
          · exact hx
        rw [insertCanon_cons_gt h1 h2]
        simp only [orderedMuts, List.pairwise_cons]
        constructor
        · intro x hx
          rcases (mem_insertCanon as).mp hx with hx | hx
          · subst hx; exact h3
          · exact h.1 x hx
        · exact ih h.2

/-- The canonical form of any mutation list is strictly sorted. -/
theorem canon_ordered (l : List Mutation) : orderedMuts (canon l) := by
  induction l with
  | nil => simp [canon, orderedMuts]
  | cons m rest ih => exact insertCanon_ordered _ ih

/-- The canonical form has no duplicate members. -/
theorem canon_nodup (l : List Mutation) : (canon l).Nodup := by
  have h := canon_ordered l
  simp only [orderedMuts] at h
  exact h.imp (fun hx => mutLt_ne hx)

/-- The canonical form has the same members as the original list. -/
theorem mem_canon {m : Mutation} : ∀ l : List Mutation, (m ∈ canon l ↔ m ∈ l) := by
  intro l
  induction l with
  | nil => simp [canon]
  | cons a as ih =>
    have hstep : canon (a :: as) = insertCanon a (canon as) := rfl
    rw [hstep, mem_insertCanon, ih, List.mem_cons]

/-- Rendering of a single-residue substitution. -/
theorem toChars_sub (k : Nat) (c1 c2 : Char) :
    Mutation.toChars ⟨k, [c1], [c2], 0⟩ = [c1] ++ natToChars k ++ [c2] := by
  simp [Mutation.toChars]

/-- On residue-letter inputs, the per-column walk of `parse_mutations`
emits exactly the substitution list. -/
theorem pmLoop_res :
    ∀ q s : List Char, (∀ c ∈ q, isUpperChar c = true) →
      (∀ c ∈ s, isUpperChar c = true) → ∀ k,
      pmLoop q s k 0 = .ok (subsFrom q s k) := by
  intro q
  induction q with
  | nil => intro s _ _ k; rfl
  | cons c1 q2 ih =>
    intro s hq hs k
    cases s with
    | nil => rfl
    | cons c2 s2 =>
      have hc1 : isUpperChar c1 = true := hq c1 (List.mem_cons_self _ _)
      have hc2 : isUpperChar c2 = true := hs c2 (List.mem_cons_self _ _)
      have hc1d : c1 ≠ '-' := (upper_facts hc1).2.2.2.2.2.2.2
      have hc2d : c2 ≠ '-' := (upper_facts hc2).2.2.2.2.2.2.2
      have ihq := ih s2 (fun c hc => hq c (List.mem_cons_of_mem _ hc))
        (fun c hc => hs c (List.mem_cons_of_mem _ hc)) (k + 1)
      by_cases hne : c1 = c2
      · subst hne
        simp only [pmLoop, subsFrom, ite_self, if_pos (And.intro hc1d hc2d),
          if_neg (by simp : ¬c1 ≠ c1)]
        exact ihq
      · have hparse : Mutation.from_string ([c1] ++ natToChars k ++ [c2]) true
            = .ok ⟨k, [c1], [c2], 0⟩ := by
          rw [← toChars_sub]
          apply roundtrip_single
          refine ⟨?_, by simp, ?_, by simp⟩
          · intro c hc
            simp only [List.mem_singleton] at hc
            subst hc; exact hc1
          · intro c hc
            simp only [List.mem_singleton] at hc
            subst hc
            exact (upper_facts hc2).2.2.1
        simp only [pmLoop, subsFrom, ite_self, if_pos (And.intro hc1d hc2d),
          if_pos hne, hparse, ihq]
        rfl

/-- Every emitted substitution has a single-residue reference. -/
theorem subsFrom_ref_len :
    ∀ q s : List Char, ∀ k, ∀ m ∈ subsFrom q s k, m.ref.length = 1 := by
  intro q
  induction q with
  | nil => intro s k m hm; simp [subsFrom] at hm
  | cons c1 q2 ih =>
    intro s k m hm
    cases s with
    | nil => simp [subsFrom] at hm
    | cons c2 s2 =>
      by_cases hne : c1 ≠ c2
      · rw [subsFrom, if_pos hne] at hm
        rcases List.mem_cons.mp hm with hm | hm
        · subst hm; rfl
        · exact ih s2 (k + 1) m hm
      · rw [subsFrom, if_neg hne] at hm
        exact ih s2 (k + 1) m hm

/-- Every emitted substitution sits at or past the starting position. -/
theorem subsFrom_pos_lb :
    ∀ q s : List Char, ∀ k, ∀ m ∈ subsFrom q s k, k ≤ m.position := by
  intro q
  induction q with
  | nil => intro s k m hm; simp [subsFrom] at hm
  | cons c1 q2 ih =>
    intro s k m hm
    cases s with
    | nil => simp [subsFrom] at hm
    | cons c2 s2 =>
      by_cases hne : c1 ≠ c2
      · rw [subsFrom, if_pos hne] at hm
        rcases List.mem_cons.mp hm with hm | hm
        · subst hm; exact Nat.le_refl k
        · exact Nat.le_of_succ_le (ih s2 (k + 1) m hm)
      · rw [subsFrom, if_neg hne] at hm
        exact Nat.le_of_succ_le (ih s2 (k + 1) m hm)

/-- The emitted substitution positions are pairwise distinct. -/
theorem subsFrom_pos_nodup :
    ∀ q s : List Char, ∀ k,
      ((subsFrom q s k).map (fun m => m.position)).Nodup := by
  intro q
  induction q with
  | nil => intro s k; simp [subsFrom]
  | cons c1 q2 ih =>
    intro s k
    cases s with
    | nil => simp [subsFrom]
    | cons c2 s2 =>
      by_cases hne : c1 ≠ c2
      · rw [subsFrom, if_pos hne, List.map_cons, List.nodup_cons]
        refine ⟨?_, ih s2 (k + 1)⟩
        intro hx
        obtain ⟨m, hm, hp⟩ := List.mem_map.mp hx
        have h2 := subsFrom_pos_lb q2 s2 (k + 1) m hm
        have hp2 : m.position = k := hp
        omega
      · rw [subsFrom, if_neg hne]
        exact ih s2 (k + 1)

/-- Diffing a column-wise identical pair emits nothing. -/
theorem subsFrom_self : ∀ q : List Char, ∀ k, subsFrom q q k = [] := by
  intro q
  induction q with
  | nil => intro k; rfl
  | cons c q2 ih =>
    intro k
    rw [subsFrom, if_neg (by simp)]
    exact ih (k + 1)

/-- Index characterization of the emitted substitutions. -/
theorem mem_subsFrom :
    ∀ (q s : List Char) (k : Nat) (m : Mutation),
      (m ∈ subsFrom q s k ↔ ∃ i c1 c2, q[i]? = some c1 ∧ s[i]? = some c2 ∧
        c1 ≠ c2 ∧ m = ⟨k + i, [c1], [c2], 0⟩) := by
  intro q
  induction q with
  | nil =>
    intro s k m
    simp [subsFrom]
  | cons c1 q2 ih =>
    intro s k m
    cases s with
    | nil =>
      simp [subsFrom]
    | cons c2 s2 =>
      have hshift : (∃ j a b, q2[j]? = some a ∧ s2[j]? = some b ∧
          a ≠ b ∧ m = ⟨(k + 1) + j, [a], [b], 0⟩) ↔
          (∃ i a b, (c1 :: q2)[i]? = some a ∧ (c2 :: s2)[i]? = some b ∧
            a ≠ b ∧ m = ⟨k + i, [a], [b], 0⟩ ∧ i ≠ 0) := by
        constructor
        · rintro ⟨j, a, b, h1, h2, hab, hm⟩
          refine ⟨j + 1, a, b, ?_, ?_, hab, ?_, by omega⟩
          · simpa using h1
          · simpa using h2
          · rw [hm]
            congr 1
            omega
        · rintro ⟨i, a, b, h1, h2, hab, hm, hi⟩
          obtain ⟨j, rfl⟩ := Nat.exists_eq_succ_of_ne_zero hi
          refine ⟨j, a, b, ?_, ?_, hab, ?_⟩
          · simpa using h1
          · simpa using h2
          · rw [hm]
            congr 1
            omega
      by_cases hne : c1 ≠ c2
      · rw [subsFrom, if_pos hne, List.mem_cons, ih s2 (k + 1) m, hshift]
        constructor
        · rintro (hm | ⟨i, a, b, h1, h2, hab, hm, hi⟩)
          · exact ⟨0, c1, c2, by simp, by simp, hne, by simpa using hm⟩
          · exact ⟨i, a, b, h1, h2, hab, hm⟩
        · rintro ⟨i, a, b, h1, h2, hab, hm⟩
          by_cases hi : i = 0
          · subst hi
            simp only [List.getElem?_cons_zero, Option.some.injEq] at h1 h2
            subst h1; subst h2
            left
            simpa using hm
          · right
            exact ⟨i, a, b, h1, h2, hab, hm, hi⟩
      · rw [subsFrom, if_neg hne, ih s2 (k + 1) m, hshift]
        push_neg at hne
        subst hne
        constructor
        · rintro ⟨i, a, b, h1, h2, hab, hm, hi⟩
          exact ⟨i, a, b, h1, h2, hab, hm⟩
        · rintro ⟨i, a, b, h1, h2, hab, hm⟩
          by_cases hi : i = 0
          · subst hi
            simp only [List.getElem?_cons_zero, Option.some.injEq] at h1 h2
            subst h1; subst h2
            exact absurd rfl hab
          · exact ⟨i, a, b, h1, h2, hab, hm, hi⟩

/-- The positional invariants hold for any list of single-residue
non-insertion edits with pairwise distinct positions. -/
theorem checkUniqueOk_subs (l : List Mutation)
    (h1 : ∀ m ∈ l, m.ref.length = 1)
    (h2 : (l.map (fun m => m.position)).Nodup) :
    checkUniqueOk l = true := by
  have hnotins : ∀ m ∈ l, m.is_insertion = false := by
    intro m hm
    have hw := h1 m hm
    rw [Mutation.is_insertion]
    cases href : m.ref with
    | nil => rw [href] at hw; simp at hw
    | cons a as => simp
  have hA : insertionInsideMulti l = false := by
    rw [insertionInsideMulti, List.any_eq_false]
    intro m hm
    simp [Mutation.initial_width, h1 m hm]
  have hfilter : l.filter (fun m => !m.is_insertion) = l := by
    rw [List.filter_eq_self]
    intro m hm
    rw [hnotins m hm]
    rfl
  have hB : nonInsPositions l = l.map (fun m => m.position) := by
    rw [nonInsPositions, hfilter]
  have hC : widthExtension l = [] := by
    rw [widthExtension]
    have hf : l.filter (fun m => decide (1 < m.initial_width)) = [] := by
      rw [List.filter_eq_nil_iff]
      intro m hm
      simp [Mutation.initial_width, h1 m hm]
    rw [hf]
    rfl
  have hD : insPositions l = [] := by
    rw [insPositions]
    have hf : l.filter (fun m => m.is_insertion) = [] := by
      rw [List.filter_eq_nil_iff]
      intro m hm
      simp [hnotins m hm]
    rw [hf]
    rfl
  rw [checkUniqueOk, hA, hB, hC]
  simp only [List.append_nil, insertionOrdersOk, hD, List.all_nil,
    Bool.not_false, Bool.true_and, Bool.and_true, decide_eq_true_eq]
  exact h2

/-- The canonical form of the emitted substitution list passes the
positional invariants. -/
theorem checkUniqueOk_canon_subs (q s : List Char) :
    checkUniqueOk (canon (subsFrom q s 0)) = true := by
  apply checkUniqueOk_subs
  · intro m hm
    exact subsFrom_ref_len q s 0 m ((mem_canon _).mp hm)
  · apply List.Nodup.map_on
    · intro x hx y hy hp
      exact List.inj_on_of_nodup_map (subsFrom_pos_nodup q s 0)
        ((mem_canon _).mp hx) ((mem_canon _).mp hy) hp
    · exact canon_nodup _

/-- On residue-letter inputs of equal length, the no-indel diff returns
the validated set of per-column substitutions. -/
theorem parseMutationsNoIndel_ok (q s : List Char)
    (hq : ∀ c ∈ q, isUpperChar c = true) (hs : ∀ c ∈ s, isUpperChar c = true)
    (hlen : q.length = s.length) :
    parseMutationsNoIndel q s = .ok (canon (subsFrom q s 0)) := by
  rw [parseMutationsNoIndel, if_neg (by omega)]
  show (pmLoop q s 0 0).bind (fun muts => MutationSet.make muts) = _
  rw [pmLoop_res q s hq hs 0]
  show MutationSet.make (subsFrom q s 0) = _
  rw [MutationSet.make, if_pos (checkUniqueOk_canon_subs q s)]

/-- C6: over residue sequences (the `A`-`Z` alphabet of materialized
variants), the no-indel diff raises the length-mismatch error exactly
when the two materialized sequences have different lengths; on equal
lengths it returns the edit set holding exactly one substitution per
differing position and nothing elsewhere; diffing `MAGV` against `MAVG`
renders to `G2V;V3G`; and diffing any sequence against itself yields the
empty edit set. -/
theorem claim_c6 :
    (∀ q s : List Char, (∀ c ∈ q, isUpperChar c = true) →
      (∀ c ∈ s, isUpperChar c = true) →
      ((parseMutationsNoIndel q s = .error .lengthMismatch ↔
          q.length ≠ s.length)
      ∧ (q.length = s.length →
          ∃ r, parseMutationsNoIndel q s = .ok r ∧
            ∀ m : Mutation,
              (m ∈ r ↔ ∃ i c1 c2, q[i]? = some c1 ∧ s[i]? = some c2 ∧
                c1 ≠ c2 ∧ m = ⟨i, [c1], [c2], 0⟩))))
    ∧ ((parseMutationsNoIndel "MAGV".toList "MAVG".toList).map
        MutationSet.toChars = .ok "G2V;V3G".toList)
    ∧ (∀ q : List Char, (∀ c ∈ q, isUpperChar c = true) →
        parseMutationsNoIndel q q = .ok []) := by
  refine ⟨?_, by decide, ?_⟩
  · intro q s hq hs
    constructor
    · constructor
      · intro herr
        intro hlen
        rw [parseMutationsNoIndel_ok q s hq hs hlen] at herr
        exact Except.noConfusion herr
      · intro hlen
        rw [parseMutationsNoIndel, if_pos hlen]
    · intro hlen
      refine ⟨canon (subsFrom q s 0), parseMutationsNoIndel_ok q s hq hs hlen, ?_⟩
      intro m
      rw [mem_canon, mem_subsFrom]
      simp only [Nat.zero_add]
  · intro q hq
    rw [parseMutationsNoIndel_ok q q hq hq rfl, subsFrom_self]
    rfl

/-- Witness for C6 at the spec's concrete diff input. -/
theorem claim_c6_witness :
    (parseMutationsNoIndel "MAGV".toList "MAVG".toList = .error .lengthMismatch ↔
      "MAGV".toList.length ≠ "MAVG".toList.length)
    ∧ ("MAGV".toList.length = "MAVG".toList.length →
        ∃ r, parseMutationsNoIndel "MAGV".toList "MAVG".toList = .ok r ∧
          ∀ m : Mutation,
            (m ∈ r ↔ ∃ i c1 c2, "MAGV".toList[i]? = some c1 ∧
              "MAVG".toList[i]? = some c2 ∧ c1 ≠ c2 ∧ m = ⟨i, [c1], [c2], 0⟩)) :=
  claim_c6.1 "MAGV".toList "MAVG".toList (by decide) (by decide)

/-- The two-element canonical set is one of the two orderings. -/
theorem canon_pair {a b : Mutation} (h : a ≠ b) :
    canon [a, b] = [a, b] ∨ canon [a, b] = [b, a] := by
  have hstep : canon [a, b] = insertCanon a [b] := rfl
  by_cases h2 : mutLt a b = true
  · left; rw [hstep, insertCanon_cons_lt h h2]
  · right
    rw [hstep, insertCanon_cons_gt h h2]
    rfl

/-- An insertion has an empty reference. -/
theorem ins_ref_nil {m : Mutation} (h : m.is_insertion = true) : m.ref = [] := by
  rw [Mutation.is_insertion] at h
  cases href : m.ref with
  | nil => rfl
  | cons a as => rw [href] at h; simp at h

/-- An edit occupying position `p` contributes at least one occurrence of
`p` to its slice of the occupied-position list. -/
theorem occupied_count {m : Mutation} {p : Nat}
    (hp : m.position ≤ p ∧ p < m.position + m.initial_width) :
    1 ≤ (if p = m.position then 1 else 0) +
      List.count p (if 1 < m.initial_width then
        List.range' (m.position + 1) (m.initial_width - 1) else []) := by
  by_cases hp0 : p = m.position
  · simp [hp0]
  · have h2 : 1 < m.initial_width := by omega
    rw [if_neg hp0, if_pos h2]
    have hmem : p ∈ List.range' (m.position + 1) (m.initial_width - 1) := by
      rw [List.mem_range'_1]
      omega
    have := List.count_pos_iff.mpr hmem
    omega

/-- Two non-insertion edits whose occupied spans share a position fail
the positional invariants. -/
theorem checkUniqueOk_overlap_pair {a b : Mutation} {p : Nat}
    (ha : a.is_insertion = false) (hb : b.is_insertion = false)
    (hpa : a.position ≤ p ∧ p < a.position + a.initial_width)
    (hpb : b.position ≤ p ∧ p < b.position + b.initial_width) :
    checkUniqueOk [a, b] = false := by
  have hN : nonInsPositions [a, b] = [a.position, b.position] := by
    simp [nonInsPositions, List.filter_cons, ha, hb]
  have hW : widthExtension [a, b] =
      (if 1 < a.initial_width then
        List.range' (a.position + 1) (a.initial_width - 1) else []) ++
      (if 1 < b.initial_width then
        List.range' (b.position + 1) (b.initial_width - 1) else []) := by
    by_cases h1 : 1 < a.initial_width <;> by_cases h2 : 1 < b.initial_width <;>
      simp [widthExtension, List.filter_cons, h1, h2]
  have hdup : ¬ ((nonInsPositions [a, b] ++ widthExtension [a, b]).Nodup) := by
    intro hnodup
    have hle := List.nodup_iff_count_le_one.mp hnodup p
    rw [hN, hW] at hle
    rw [List.count_append, List.count_append] at hle
    have hca := occupied_count (m := a) hpa
    have hcb := occupied_count (m := b) hpb
    have hcount2 : List.count p [a.position, b.position]
        = (if p = a.position then 1 else 0) +
          (if p = b.position then 1 else 0) := by
      simp only [List.count_cons, List.count_nil, beq_iff_eq, Nat.zero_add]
      split_ifs <;> omega
    rw [hcount2] at hle
    omega
  rw [checkUniqueOk, decide_eq_false hdup, Bool.and_false, Bool.false_and]

/-- Two distinct insertions at one position with equal orders fail the
positional invariants. -/
theorem checkUniqueOk_ins_same_order {a b : Mutation}
    (ha : a.is_insertion = true) (hb : b.is_insertion = true)
    (hpos : a.position = b.position) (hord : a.order = b.order) :
    checkUniqueOk [a, b] = false := by
  have hIns : insPositions [a, b] = [a.position] := by
    simp only [insPositions, List.filter_cons, ha, hb, if_pos, List.filter_nil,
      List.map_cons, List.map_nil, dedupKeep, dedupKeepAux, ← hpos]
    simp [dedupKeepAux]
  have hGroup : [a, b].filter
      (fun m => m.is_insertion && decide (m.position = a.position)) = [a, b] := by
    simp [List.filter_cons, ha, hb, hpos]
  have hOrd : insertionOrdersOk [a, b] = false := by
    rw [insertionOrdersOk, hIns]
    simp only [List.all_cons, List.all_nil, Bool.and_true, hGroup]
    simp [List.nodup_cons, hord]
  rw [checkUniqueOk, hOrd, Bool.and_false]

/-- Two insertions at one position with distinct orders pass the
positional invariants. -/
theorem checkUniqueOk_ins_distinct_order {a b : Mutation}
    (ha : a.is_insertion = true) (hb : b.is_insertion = true)
    (hpos : a.position = b.position) (hord : a.order ≠ b.order) :
    checkUniqueOk [a, b] = true := by
  have hwa : a.initial_width = 0 := by
    rw [Mutation.initial_width, ins_ref_nil ha]; rfl
  have hwb : b.initial_width = 0 := by
    rw [Mutation.initial_width, ins_ref_nil hb]; rfl
  have hA : insertionInsideMulti [a, b] = false := by
    rw [insertionInsideMulti, List.any_eq_false]
    intro m hm
    rcases List.mem_cons.mp hm with hm | hm
    · subst hm; simp [hwa]
    · simp only [List.mem_singleton] at hm; subst hm; simp [hwb]
  have hB : nonInsPositions [a, b] = [] := by
    simp [nonInsPositions, List.filter_cons, ha, hb]
  have hC : widthExtension [a, b] = [] := by
    simp [widthExtension, List.filter_cons, hwa, hwb]
  have hIns : insPositions [a, b] = [a.position] := by
    simp only [insPositions, List.filter_cons, ha, hb, if_pos, List.filter_nil,
      List.map_cons, List.map_nil, ← hpos]
    simp [dedupKeep, dedupKeepAux]
  have hGroup : [a, b].filter
      (fun m => m.is_insertion && decide (m.position = a.position)) = [a, b] := by
    simp [List.filter_cons, ha, hb, hpos]
  have hOrd : insertionOrdersOk [a, b] = true := by
    rw [insertionOrdersOk, hIns]
    simp only [List.all_cons, List.all_nil, Bool.and_true, hGroup]
    simp [List.nodup_cons, hord]
  rw [checkUniqueOk, hA, hB, hC, hOrd]
  rfl

/-- C2: constructing an edit set raises the position-conflict error
exactly per the positional invariants: any two distinct non-insertion
edits whose occupied spans (start position through the extra positions a
multi-residue reference consumes) share a position make construction
fail; two distinct insertions at one position with equal orders make
construction fail; and two insertions at one position with distinct
orders construct successfully, both edits present in the set. -/
theorem claim_c2 :
    (∀ m1 m2 : Mutation, m1 ≠ m2 →
      m1.is_insertion = false → m2.is_insertion = false →
      (∃ p, (m1.position ≤ p ∧ p < m1.position + m1.initial_width) ∧
        (m2.position ≤ p ∧ p < m2.position + m2.initial_width)) →
      MutationSet.make [m1, m2] = .error .posConflict)
    ∧ (∀ m1 m2 : Mutation, m1 ≠ m2 →
      m1.is_insertion = true → m2.is_insertion = true →
      m1.position = m2.position → m1.order = m2.order →
      MutationSet.make [m1, m2] = .error .posConflict)
    ∧ (∀ m1 m2 : Mutation, m1.is_insertion = true → m2.is_insertion = true →
      m1.position = m2.position → m1.order ≠ m2.order →
      ∃ s, MutationSet.make [m1, m2] = .ok s ∧ m1 ∈ s ∧ m2 ∈ s) := by
  refine ⟨?_, ?_, ?_⟩
  · rintro m1 m2 hne h1 h2 ⟨p, hp1, hp2⟩
    rw [MutationSet.make]
    rcases canon_pair hne with hc | hc <;> rw [hc]
    · rw [if_neg (by
        rw [checkUniqueOk_overlap_pair h1 h2 hp1 hp2]
        exact Bool.false_ne_true)]
    · rw [if_neg (by
        rw [checkUniqueOk_overlap_pair h2 h1 hp2 hp1]
        exact Bool.false_ne_true)]
  · intro m1 m2 hne h1 h2 hpos hord
    rw [MutationSet.make]
    rcases canon_pair hne with hc | hc <;> rw [hc]
    · rw [if_neg (by
        rw [checkUniqueOk_ins_same_order h1 h2 hpos hord]
        exact Bool.false_ne_true)]
    · rw [if_neg (by
        rw [checkUniqueOk_ins_same_order h2 h1 hpos.symm hord.symm]
        exact Bool.false_ne_true)]
  · intro m1 m2 h1 h2 hpos hord
    have hne : m1 ≠ m2 := fun hx => hord (by rw [hx])
    refine ⟨canon [m1, m2], ?_, ?_, ?_⟩
    · rw [MutationSet.make]
      rcases canon_pair hne with hc | hc <;> rw [hc]
      · rw [if_pos (checkUniqueOk_ins_distinct_order h1 h2 hpos hord)]
      · rw [if_pos
          (checkUniqueOk_ins_distinct_order h2 h1 hpos.symm (Ne.symm hord))]
    · rw [mem_canon]; exact List.mem_cons_self _ _
    · rw [mem_canon]; exact List.mem_cons_of_mem _ (List.mem_cons_self _ _)

/-- Witness for C2: an overlap through a multi-residue reference, two
equal-order insertions, and two order-separated insertions, at concrete
edits. -/
theorem claim_c2_witness :
    MutationSet.make [⟨1, ['A', 'B'], ['V'], 0⟩, ⟨2, ['C'], ['D'], 0⟩]
      = .error .posConflict
    ∧ MutationSet.make [⟨1, [], ['T'], 0⟩, ⟨1, [], ['M'], 0⟩]
      = .error .posConflict
    ∧ ∃ s, MutationSet.make [⟨1, [], ['T'], 0⟩, ⟨1, [], ['M'], 1⟩] = .ok s
      ∧ (⟨1, [], ['T'], 0⟩ : Mutation) ∈ s ∧ (⟨1, [], ['M'], 1⟩ : Mutation) ∈ s :=
  ⟨claim_c2.1 ⟨1, ['A', 'B'], ['V'], 0⟩ ⟨2, ['C'], ['D'], 0⟩ (by decide)
      (by decide) (by decide) ⟨2, by decide, by decide⟩,
   claim_c2.2.1 ⟨1, [], ['T'], 0⟩ ⟨1, [], ['M'], 0⟩ (by decide) (by decide)
      (by decide) (by decide) (by decide),
   claim_c2.2.2 ⟨1, [], ['T'], 0⟩ ⟨1, [], ['M'], 1⟩ (by decide) (by decide)
      (by decide) (by decide)⟩

/-- A sorted pair is already canonical. -/
theorem canon_sorted_pair {a b : Mutation} (h : mutLt a b = true) :
    canon [a, b] = [a, b] := by
  have hstep : canon [a, b] = insertCanon a [b] := rfl
  rw [hstep, insertCanon_cons_lt (mutLt_ne h) h]

/-- A sorted triple is already canonical. -/
theorem canon_sorted_triple {a b c : Mutation} (hab : mutLt a b = true)
    (hbc : mutLt b c = true) : canon [a, b, c] = [a, b, c] := by
  have hstep : canon [a, b, c] = insertCanon a (insertCanon b [c]) := rfl
  rw [hstep, insertCanon_cons_lt (mutLt_ne hbc) hbc,
    insertCanon_cons_lt (mutLt_ne hab) hab]

/-- C9, amended: over the `(position, order)`-sorted edits, the
aggregation pass merges ANY two same-position edits that the sort key
orders strictly (strictly increasing `order`) into one edit
concatenating the replacement text in that order and keeping the
earliest order (for a pair of insertions this is the claim's insertion
merge; the correction is that a non-insertion followed by a
same-position insertion with a later order is merged the same way
rather than flushed as a mixed pair; a same-position pair with EQUAL
orders — only possible when an insertion shares the position of a
non-insertion — is merged in whatever order the unspecified set
iteration presents it, so no deterministic outcome is asserted there);
it merges a run of deletions at contiguous positions under width
accounting, concatenating the reference text; and the running aggregate
is flushed unmerged exactly when the next edit is at a non-adjacent
position, or is adjacent but the pair is not a deletion continuing a
deletion-ended aggregate.  The resulting list replaces the set's
previous membership. -/
theorem claim_c9_amended :
    (∀ m1 m2 : Mutation, m2.position = m1.position → m1.order < m2.order →
      MutationSet.aggregate [m1, m2]
        = [⟨m1.position, m1.ref, m1.alt ++ m2.alt, m1.order⟩])
    ∧ (∀ (p : Nat) (r1 r2 r3 : List Char), r1 ≠ [] → r2 ≠ [] → r3 ≠ [] →
      MutationSet.aggregate
        [⟨p, r1, ['-'], 0⟩, ⟨p + r1.length, r2, ['-'], 0⟩,
         ⟨p + r1.length + r2.length, r3, ['-'], 0⟩]
        = [⟨p, r1 ++ r2 ++ r3, ['-'], 0⟩])
    ∧ (∀ m1 m2 : Mutation, mutLt m1 m2 = true →
      m2.position ≠ m1.position →
      m2.position ≠ m1.position + m1.initial_width →
      MutationSet.aggregate [m1, m2] = [m1, m2])
    ∧ (∀ m1 m2 : Mutation, mutLt m1 m2 = true →
      m2.position = m1.position + m1.initial_width →
      m2.position ≠ m1.position →
      ¬(m1.alt.getLast? = some '-' ∧ m2.is_deletion = true) →
      MutationSet.aggregate [m1, m2] = [m1, m2]) := by
  refine ⟨?_, ?_, ?_, ?_⟩
  · intro m1 m2 hpos hord
    have hlt : mutLt m1 m2 = true := by
      simp only [mutLt, Bool.or_eq_true, Bool.and_eq_true, decide_eq_true_eq]
      right
      exact ⟨hpos.symm, Or.inl hord⟩
    rw [MutationSet.aggregate, canon_sorted_pair hlt]
    simp only [aggLoop, if_pos hpos]
    rfl
  · intro p r1 r2 r3 hr1 hr2 hr3
    have hl1 : 0 < r1.length := List.length_pos.mpr hr1
    have hl2 : 0 < r2.length := List.length_pos.mpr hr2
    have h12 : mutLt ⟨p, r1, ['-'], 0⟩ ⟨p + r1.length, r2, ['-'], 0⟩ = true := by
      simp only [mutLt, Bool.or_eq_true, decide_eq_true_eq]
      left; omega
    have h23 : mutLt ⟨p + r1.length, r2, ['-'], 0⟩
        ⟨p + r1.length + r2.length, r3, ['-'], 0⟩ = true := by
      simp only [mutLt, Bool.or_eq_true, decide_eq_true_eq]
      left; omega
    rw [MutationSet.aggregate, canon_sorted_triple h12 h23]
    have e1 : ¬(p + r1.length = p) := by omega
    have e2 : ¬(p + r1.length + r2.length = p) := by omega
    simp [aggLoop, Mutation.initial_width, Mutation.is_deletion, e1, e2,
      hr1, hr2, Nat.add_assoc, List.append_assoc, canon, insertCanon]
  · intro m1 m2 hlt hp1 hp2
    rw [MutationSet.aggregate, canon_sorted_pair hlt]
    simp only [aggLoop, if_neg hp1, if_neg hp2]
    exact canon_sorted_pair hlt
  · intro m1 m2 hlt hadj hp1 hmix
    rw [MutationSet.aggregate, canon_sorted_pair hlt]
    have hmixb : ¬((decide (m1.alt.getLast? = some '-') &&
        m2.is_deletion) = true) := by
      intro hx
      rw [Bool.and_eq_true, decide_eq_true_eq] at hx
      exact hmix ⟨hx.1, hx.2⟩
    simp only [aggLoop, if_neg hp1, if_pos hadj, if_neg hmixb]
    exact canon_sorted_pair hlt

/-- Witness for the amended C9 at concrete edits: a same-position
order-separated deletion-insertion merge, a three-deletion run merge, a
non-adjacent flush, and an adjacent non-deletion flush. -/
theorem claim_c9_amended_witness :
    MutationSet.aggregate [⟨1, ['A'], ['-'], 0⟩, ⟨1, [], ['T'], 1⟩]
      = [⟨1, ['A'], ['-', 'T'], 0⟩]
    ∧ MutationSet.aggregate
        [⟨0, ['A'], ['-'], 0⟩, ⟨1, ['B'], ['-'], 0⟩, ⟨2, ['C'], ['-'], 0⟩]
      = [⟨0, ['A', 'B', 'C'], ['-'], 0⟩]
    ∧ MutationSet.aggregate [⟨0, ['A'], ['M'], 0⟩, ⟨2, ['G'], ['V'], 0⟩]
      = [⟨0, ['A'], ['M'], 0⟩, ⟨2, ['G'], ['V'], 0⟩]
    ∧ MutationSet.aggregate [⟨0, ['A'], ['-'], 0⟩, ⟨1, ['G'], ['V'], 0⟩]
      = [⟨0, ['A'], ['-'], 0⟩, ⟨1, ['G'], ['V'], 0⟩] :=
  ⟨claim_c9_amended.1 ⟨1, ['A'], ['-'], 0⟩ ⟨1, [], ['T'], 1⟩
      (by decide) (by decide),
   claim_c9_amended.2.1 0 ['A'] ['B'] ['C'] (by decide) (by decide) (by decide),
   claim_c9_amended.2.2.1 ⟨0, ['A'], ['M'], 0⟩ ⟨2, ['G'], ['V'], 0⟩
      (by decide) (by decide) (by decide),
   claim_c9_amended.2.2.2 ⟨0, ['A'], ['-'], 0⟩ ⟨1, ['G'], ['V'], 0⟩
      (by decide) (by decide) (by decide) (by decide)⟩

/-- C3: for a root variant (any base sequence, bound mutations and no
children) and any edits that validate for the child, propagating the
child succeeds; while the child is registered, adding ANY mutations to
the root raises the immutable-variant error; after the child (the root's
last child) cuts its parent, adding a valid mutation set to the root
succeeds.  Mutability is the derived condition that the child set is
empty (together with the construction-time flag, true here). -/
theorem claim_c3 (b : List Char) (m0 ed ms : List Mutation)
    (h1 : checkUniqueOk (canon ed) = true)
    (h2 : ((canon ed).all fun m =>
      m.check_validity (MutationSet.get_variant_str m0 b)
        (MutationSet.get_variant_str []
          (MutationSet.get_variant_str m0 b)).length) = true)
    (h3 : checkUniqueOk (canon (m0 ++ ms)) = true)
    (h4 : ((canon (m0 ++ ms)).all fun m =>
      m.check_validity b (MutationSet.get_variant_str m0 b).length) = true) :
    ∃ w1 w2,
      World.propegate (World.root b m0) 0 ed = (w1, .ok 1)
      ∧ (∀ anyMs, World.add_mutations w1 0 anyMs = .error .immutable)
      ∧ World.cut_parent w1 1 = .ok w2
      ∧ ∃ w3, World.add_mutations w2 0 ms = .ok w3 := by
  refine ⟨[⟨some b, none, m0, true, [1]⟩, ⟨none, some 0, canon ed, true, []⟩],
    [⟨some b, none, m0, true, []⟩,
     ⟨some (MutationSet.get_variant_str m0 b), none, canon ed, true, []⟩],
    ?_, ?_, ?_, ?_⟩
  · have hadd : World.add_mutations
        [⟨some b, none, m0, true, [1]⟩, ⟨none, some 0, [], true, []⟩] 1 ed
      = (if (!checkUniqueOk (canon ed)) = true then Except.error VErr.posConflict
         else if ((canon ed).all fun m =>
            m.check_validity (MutationSet.get_variant_str m0 b)
              (MutationSet.get_variant_str []
                (MutationSet.get_variant_str m0 b)).length) = true
          then Except.ok
            [⟨some b, none, m0, true, [1]⟩, ⟨none, some 0, canon ed, true, []⟩]
          else Except.error VErr.invalidRef) := rfl
    have hprop : World.propegate (World.root b m0) 0 ed
        = (match World.add_mutations
            [⟨some b, none, m0, true, [1]⟩, ⟨none, some 0, [], true, []⟩] 1 ed with
          | .ok w2 => (w2, .ok 1)
          | .error e =>
            ([⟨some b, none, m0, true, [1]⟩, ⟨none, some 0, [], true, []⟩],
              .error e)) := rfl
    rw [hprop, hadd, h1, h2]
    rfl
  · intro anyMs; rfl
  · rfl
  · have hadd2 : World.add_mutations
        [⟨some b, none, m0, true, []⟩,
         ⟨some (MutationSet.get_variant_str m0 b), none, canon ed, true, []⟩] 0 ms
      = (if (!checkUniqueOk (canon (m0 ++ ms))) = true then
            Except.error VErr.posConflict
         else if ((canon (m0 ++ ms)).all fun m =>
            m.check_validity b (MutationSet.get_variant_str m0 b).length) = true
          then Except.ok
            [⟨some b, none, canon (m0 ++ ms), true, []⟩,
             ⟨some (MutationSet.get_variant_str m0 b), none, canon ed, true, []⟩]
          else Except.error VErr.invalidRef) := rfl
    refine ⟨[⟨some b, none, canon (m0 ++ ms), true, []⟩,
      ⟨some (MutationSet.get_variant_str m0 b), none, canon ed, true, []⟩], ?_⟩
    rw [hadd2, h3, h4]
    rfl

/-- Witness for C3 at concrete inputs: root `MAGV`, child edit `A2[TM]`
(0-indexed position 1), and the later root edit `V4G` (0-indexed
position 3). -/
theorem claim_c3_witness :
    ∃ w1 w2,
      World.propegate (World.root "MAGV".toList []) 0 [⟨1, ['A'], ['T', 'M'], 0⟩]
        = (w1, .ok 1)
      ∧ (∀ anyMs, World.add_mutations w1 0 anyMs = .error .immutable)
      ∧ World.cut_parent w1 1 = .ok w2
      ∧ ∃ w3, World.add_mutations w2 0 [⟨3, ['V'], ['G'], 0⟩] = .ok w3 :=
  claim_c3 "MAGV".toList [] [⟨1, ['A'], ['T', 'M'], 0⟩] [⟨3, ['V'], ['G'], 0⟩]
    (by decide) (by decide) (by decide) (by decide)

/-- C7, amended: `cut_parent` on a parentless variant raises the
no-parent error and changes nothing; on a variant with a parent it
removes the variant from the parent's child set, clears the parent
reference, and freezes the PARENT's materialized sequence (the variant's
base sequence) as the variant's new literal base, keeping the variant's
own edit set — so the detached variant is a root that still materializes
to the same sequence as before detachment (not a root whose literal base
is that materialized sequence). -/
theorem claim_c7_amended :
    (∀ (b : List Char) (m0 : List Mutation),
      World.cut_parent (World.root b m0) 0 = .error .noParent)
    ∧ (∀ (bp : List Char) (mp mc : List Mutation) (cs others : List Nat),
      World.cut_parent
        [⟨some bp, none, mp, true, 1 :: others⟩, ⟨none, some 0, mc, true, cs⟩] 1
      = .ok
        [⟨some bp, none, mp, true, others⟩,
         ⟨some (MutationSet.get_variant_str mp bp), none, mc, true, cs⟩]) := by
  constructor
  · intro b m0; rfl
  · intro bp mp mc cs others; rfl

/-- C10: `cut_parent` preserves the detached variant's materialized
sequence and leaves its edit-set membership unchanged. -/
theorem claim_c10 (bp : List Char) (mp mc : List Mutation) (cs : List Nat) :
    ∃ w2, World.cut_parent
        [⟨some bp, none, mp, true, [1]⟩, ⟨none, some 0, mc, true, cs⟩] 1
      = .ok w2
    ∧ World.materialize w2 1
      = World.materialize
          [⟨some bp, none, mp, true, [1]⟩, ⟨none, some 0, mc, true, cs⟩] 1
    ∧ w2[1]?.map Variant.mutations
      = ([⟨some bp, none, mp, true, [1]⟩,
          ⟨none, some 0, mc, true, cs⟩] : World)[1]?.map Variant.mutations :=
  ⟨[⟨some bp, none, mp, true, []⟩,
    ⟨some (MutationSet.get_variant_str mp bp), none, mc, true, cs⟩],
   rfl, rfl, rfl⟩

/-- C8, amended: edit validation against a variant fails exactly when
the reference residues differ from
`base_sequence[position : position + width]`; for an insertion (empty
reference, for which the slice comparison is vacuous) validation
succeeds exactly when the position does not exceed the length of the
variant's MATERIALIZED sequence `len(str(variant))` — not the length of
the base sequence the edit is applied to — so an insertion appending at
the end of the materialized sequence is accepted. -/
theorem claim_c8_amended (m : Mutation) (base : List Char) (matLen : Nat) :
    m.check_validity base matLen = true ↔
      (if m.is_insertion = true then m.position ≤ matLen
       else ∃ rest, base.drop m.position = m.ref ++ rest) := by
  by_cases hins : m.is_insertion = true
  · have href : m.ref = [] := ins_ref_nil hins
    rw [if_pos hins]
    by_cases hpos : matLen < m.position
    · rw [Mutation.check_validity, if_pos (by simp [hins, hpos])]
      constructor
      · intro hx; exact absurd hx (by simp)
      · intro hx; omega
    · rw [Mutation.check_validity, if_neg (by simp [hpos])]
      rw [if_neg (by simp [listSlice, href, Mutation.initial_width])]
      constructor
      · intro _; omega
      · intro _; rfl
  · rw [if_neg hins]
    rw [Mutation.check_validity, if_neg (by simp [hins])]
    by_cases hslice : listSlice base m.position m.initial_width = m.ref
    · rw [if_neg (by simp [hslice])]
      constructor
      · intro _
        refine ⟨(base.drop m.position).drop m.ref.length, ?_⟩
        conv_lhs => rw [← List.take_append_drop m.ref.length
          (base.drop m.position)]
        rw [show (base.drop m.position).take m.ref.length = m.ref from hslice]
      · intro _; rfl
    · rw [if_pos (by simp [hslice])]
      constructor
      · intro hx; exact absurd hx (by simp)
      · rintro ⟨rest, hrest⟩
        exfalso
        apply hslice
        rw [listSlice, Mutation.initial_width, hrest, List.take_left]
